import Mathlib

/-!
Verification of the K-in-a-Row-with-Forbidden-Squares agent.

This file gives a shallow embedding, in Lean, of the core game logic of the
repository:

* `winTesterForK.py` — the win/draw detector (`check_win_condition`,
  `_count_in_direction`, `_is_board_full`, `_check_full_board`);
* `KInARow.py` — the agent (`apply_move`, `get_available_moves`,
  `is_terminal`, `static_eval` / `count_sequences` /
  `get_all_possible_sequences`, `compute_zobrist`, `minimax`, and the root
  search loop of `make_move`).

Board cells in the Python code are the strings `' '` (empty), `'-'`
(forbidden), `'X'` and `'O'`; they are embedded as the four-constructor type
`Cell`.  The `State` class (board plus `whose_move`) lives in the repository's
`game_types` module, whose source is not included; its shape is fully
determined by how `KInARow.py` reads it (`state.board` a 2D list,
`state.whose_move` one of `'X'`/`'O'`), matching the spec's data model.

Search values in Python mix `int` evaluations with `±math.inf`; they are
embedded as `Val := WithBot (WithTop ℤ)` (`⊥` for `-inf`, `⊤` for `+inf`).
-/

inductive Cell where
  | empty
  | forb
  | X
  | O
deriving DecidableEq, Repr

inductive Player where
  | X
  | O
deriving DecidableEq, Repr

def Player.cell : Player → Cell
  | .X => Cell.X
  | .O => Cell.O

def Player.other : Player → Player
  | .X => .O
  | .O => .X

abbrev Board := List (List Cell)

/-- The game `State` object: a 2D board plus whose turn it is.
Modelled from the spec: the `State` class itself is defined in the
repository's `game_types` module (not among the provided sources); the spec's
data model says a State owns a board snapshot plus `whoseMove ∈ {X, O}`, which
is exactly how `KInARow.py` and `winTesterForK.py` access it. -/
structure State where
  board : Board
  whose_move : Player
deriving DecidableEq, Repr

/-- Python `rows = len(board)`. -/
def rowsOf (b : Board) : ℕ := b.length

/-- Python `cols = len(board[0]) if rows > 0 else 0`. -/
def colsOf (b : Board) : ℕ := (b.headD []).length

/-- Reading `board[r][c]` for non-negative indices (out-of-range reads default to
`empty`; the Python code only reads cells under in-bounds guards, except
where noted). -/
def cellN (b : Board) (r c : ℕ) : Cell := (b.getD r []).getD c Cell.empty

/-- Reading `board[r][c]` at integer coordinates; only consulted under the in-bounds
guard below, which in particular forces `0 ≤ r` and `0 ≤ c`. -/
def cellZ (b : Board) (r c : ℤ) : Cell := cellN b r.toNat c.toNat

/-- The guard `0 <= current_row < rows and 0 <= current_col < cols` of
`_count_in_direction`. -/
def inBoundsB (b : Board) (r c : ℤ) : Bool :=
  decide (0 ≤ r) && decide (r < (rowsOf b : ℤ)) &&
  decide (0 ≤ c) && decide (c < (colsOf b : ℤ))

/-- A board is well-formed when every row has the nominal column count; the
Python code indexes `board[r][c]` with `c < len(board[0])` throughout, which
is only in-range on such boards. -/
def WF (b : Board) : Prop := ∀ row ∈ b, row.length = colsOf b

instance (b : Board) : Decidable (WF b) := by
  unfold WF; infer_instance

/-- The body of the `while` loop of `_count_in_direction`, as a fuel-indexed
recursion: starting at `(r, c)` it counts consecutive in-bounds cells equal to
`player`, stepping by `(dr, dc)`.  The Python loop makes at most
`max(rows, cols) + 1` tests (each step moves by ±1 in at least one
coordinate, and it stops at the first out-of-bounds or non-matching cell), so
any fuel `≥ rows + cols + 1` computes the same value as the loop. -/
def countFrom (b : Board) (player : Cell) (dr dc : ℤ) : ℕ → ℤ → ℤ → ℕ
  | 0, _, _ => 0
  | fuel + 1, r, c =>
    if inBoundsB b r c && (cellZ b r c == player) then
      countFrom b player dr dc fuel (r + dr) (c + dc) + 1
    else 0

/-- Embeds `_count_in_direction(board, start_row, start_col, delta_row, delta_col,
player, rows, cols)`: counts matching pieces starting one step away from
`(start_row, start_col)`. -/
def count_in_direction (b : Board) (startRow startCol dr dc : ℤ) (player : Cell) : ℕ :=
  countFrom b player dr dc (rowsOf b + colsOf b + 1) (startRow + dr) (startCol + dc)

/-- The four direction deltas of `check_win_condition`: horizontal, vertical,
diagonal, anti-diagonal. -/
def dirs4 : List (ℤ × ℤ) := [(0, 1), (1, 0), (1, 1), (1, -1)]

/-- Embeds `_is_board_full`: no `' '` and no `'-'` cell remains. -/
def is_board_full (b : Board) : Bool :=
  b.all fun row => row.all fun cell => !(cell == Cell.empty || cell == Cell.forb)

/-- The four run checks of `_check_full_board` at a candidate origin
`(row, col)`: horizontal (guard `col + k <= cols`), vertical
(`row + k <= rows`), diagonal (both), anti-diagonal
(`row + k <= rows and col - k + 1 >= 0`). -/
def runAtB (b : Board) (player : Cell) (k row col : ℕ) : Bool :=
  (decide (col + k ≤ colsOf b) &&
    (List.range k).all fun i => cellN b row (col + i) == player) ||
  (decide (row + k ≤ rowsOf b) &&
    (List.range k).all fun i => cellN b (row + i) col == player) ||
  (decide (row + k ≤ rowsOf b) && decide (col + k ≤ colsOf b) &&
    (List.range k).all fun i => cellN b (row + i) (col + i) == player) ||
  (decide (row + k ≤ rowsOf b) && decide (k ≤ col + 1) &&
    (List.range k).all fun i => cellN b (row + i) (col - i) == player)

/-- The scan of `_check_full_board` for one player: some cell holds that
player's token and one of the four run checks succeeds there.  (The Python
code returns at the first hit in row-major order; since the returned value
depends only on the player, the scan is equivalent to this existence test.) -/
def hasRunB (b : Board) (player : Cell) (k : ℕ) : Bool :=
  (List.range (rowsOf b)).any fun row =>
    (List.range (colsOf b)).any fun col =>
      (cellN b row col == player) && runAtB b player k row col

/-- The return values of the win detector: `'X'`, `'O'`, `'draw'`, `None`. -/
inductive Outcome where
  | winX
  | winO
  | draw
  | ongoing
deriving DecidableEq, Repr

/-- Embeds `_check_full_board(board, k)`: scan all cells for player `'X'`, then
`'O'` (in that order), then check for a full-board draw. -/
def check_full_board (b : Board) (k : ℕ) : Outcome :=
  if hasRunB b Cell.X k then .winX
  else if hasRunB b Cell.O k then .winO
  else if is_board_full b then .draw
  else .ongoing

/-- Embeds `check_win_condition(state, move, k)` (alias `winTesterForK`).  With
`move=None` it delegates to `_check_full_board`; otherwise it reads the token
at the moved cell, returns `None` unless it is `'X'` or `'O'`, then tests the
four axes through the cell (the cell itself counting as 1) and finally the
full-board draw condition. -/
def check_win_condition (s : State) (mv : Option (ℕ × ℕ)) (k : ℕ) : Outcome :=
  match mv with
  | none => check_full_board s.board k
  | some (row, col) =>
    let b := s.board
    let player := cellN b row col
    if !(player == Cell.X || player == Cell.O) then .ongoing
    else if dirs4.any fun d =>
        decide (k ≤ 1 + count_in_direction b row col d.1 d.2 player
                      + count_in_direction b row col (-d.1) (-d.2) player) then
      (if player == Cell.X then .winX else .winO)
    else if is_board_full b then .draw
    else .ongoing

/-! ## `KInARow.py`: state transition and move enumeration -/

/-- Python list indexing: `xs[i]` accepts `-len ≤ i < len`, counting from the
end for negative `i`; anything else raises `IndexError`. -/
def pyIdx (len : ℕ) (i : ℤ) : Option ℕ :=
  if 0 ≤ i ∧ i < (len : ℤ) then some i.toNat
  else if -(len : ℤ) ≤ i ∧ i < 0 then some ((len : ℤ) + i).toNat
  else none

/-- The two ways `apply_move` can fail: an uncaught `IndexError` from Python
indexing, or the explicit `ValueError("Invalid Move: ...")` raised on an
occupied target cell. -/
inductive ApplyError where
  | indexError
  | invalidMove
deriving DecidableEq, Repr

def setCell (b : Board) (r c : ℕ) (v : Cell) : Board :=
  b.set r ((b.getD r []).set c v)

/-- Embeds `apply_move(state, move)`: it deep-copies the state, raises
`ValueError` if `board[r][c] != " "`, otherwise writes the mover's token at
`board[r][c]` and flips `whose_move`.  There is no bounds check: the raw
Python indexing (`pyIdx`, including negative-index wrap-around) decides
whether the accesses succeed. -/
def apply_move (s : State) (mv : ℤ × ℤ) : Except ApplyError State :=
  match pyIdx s.board.length mv.1 with
  | none => .error .indexError
  | some ri =>
    let row := s.board.getD ri []
    match pyIdx row.length mv.2 with
    | none => .error .indexError
    | some ci =>
      if row.getD ci Cell.empty ≠ Cell.empty then .error .invalidMove
      else .ok ⟨setCell s.board ri ci s.whose_move.cell, s.whose_move.other⟩

/-- The success path of `apply_move` for an in-bounds move, as a total
function; used by the search, whose moves all come from
`get_available_moves` and therefore are in-bounds and empty. -/
def applyU (s : State) (mv : ℕ × ℕ) : State :=
  ⟨setCell s.board mv.1 mv.2 s.whose_move.cell, s.whose_move.other⟩

/-- Embeds `get_available_moves(state)`: all `(r, c)` with `board[r][c] == " "`, in
row-major order (`r` ranges over `len(state.board)`, `c` over
`len(state.board[0])`). -/
def get_available_moves (s : State) : List (ℕ × ℕ) :=
  (List.range s.board.length).flatMap fun r =>
    (List.range (s.board.headD []).length).filterMap fun c =>
      if cellN s.board r c = Cell.empty then some (r, c) else none

/-! ## `KInARow.py`: static evaluation -/

/-- Embeds `get_all_possible_sequences(state, k)`: every length-`k` contiguous cell
sequence, horizontal then vertical then diagonal then anti-diagonal.  The
Python ranges `range(cols - k + 1)` etc. are rendered as `range (cols + 1 - k)`
(truncated subtraction), and `range(k - 1, cols)` as `range' (k - 1)
(cols - (k - 1))`; these agree with Python for every `k ≥ 1`. -/
def get_all_possible_sequences (s : State) (k : ℕ) : List (List Cell) :=
  let b := s.board
  let rows := b.length
  let cols := (b.headD []).length
  ((List.range rows).flatMap fun r =>
    (List.range (cols + 1 - k)).map fun c =>
      (List.range k).map fun i => cellN b r (c + i)) ++
  ((List.range cols).flatMap fun c =>
    (List.range (rows + 1 - k)).map fun r =>
      (List.range k).map fun i => cellN b (r + i) c) ++
  ((List.range (rows + 1 - k)).flatMap fun r =>
    (List.range (cols + 1 - k)).map fun c =>
      (List.range k).map fun i => cellN b (r + i) (c + i)) ++
  ((List.range (rows + 1 - k)).flatMap fun r =>
    (List.range' (k - 1) (cols - (k - 1))).map fun c =>
      (List.range k).map fun i => cellN b (r + i) (c - i))

/-- The per-sequence contribution inside `count_sequences`: `+1000` when
`seq.count(player) == k`, `+50` when `seq.count(player) == k - 1 and
seq.count(' ') == 1`, `+10` when `seq.count(player) == k - 2 and
seq.count(' ') == 2`, else `0`.  (The `k - 1`/`k - 2` comparisons are written
additively so that they agree with Python's signed arithmetic for every
`k ≥ 0`.) -/
def seqScore (k : ℕ) (player : Cell) (seq : List Cell) : ℕ :=
  if seq.count player = k then 1000
  else if seq.count player + 1 = k ∧ seq.count Cell.empty = 1 then 50
  else if seq.count player + 2 = k ∧ seq.count Cell.empty = 2 then 10
  else 0

/-- Embeds `count_sequences(state, player)` with `k = current_game_type.k`. -/
def count_sequences (k : ℕ) (s : State) (player : Cell) : ℕ :=
  ((get_all_possible_sequences s k).map (seqScore k player)).sum

/-- Embeds `static_eval(state)`: `x_score - o_score`. -/
def static_eval (k : ℕ) (s : State) : ℤ :=
  (count_sequences k s Cell.X : ℤ) - (count_sequences k s Cell.O : ℤ)

/-! ## `KInARow.py`: terminality test -/

/-- The comparison `winTesterForK(state, (r, c), k) != "No win"` appearing in
`is_terminal`: `check_win_condition` returns only `'X'`, `'O'`, `'draw'` or
`None`, each of which differs from the string `"No win"`, so the comparison
is true for every possible return value. -/
def neNoWinString : Outcome → Bool
  | .winX => true
  | .winO => true
  | .draw => true
  | .ongoing => true

/-- Embeds `is_terminal(state)`: it scans every cell holding `'X'` or `'O'` and returns
`True` as soon as `winTesterForK(state, (r, c), k) != "No win"`; otherwise
returns `True` iff no row contains `' '`. -/
def is_terminal (k : ℕ) (s : State) : Bool :=
  if (List.range s.board.length).any (fun r =>
      (List.range (colsOf s.board)).any fun c =>
        (cellN s.board r c == Cell.X || cellN s.board r c == Cell.O) &&
        neNoWinString (check_win_condition s (some (r, c)) k)) then
    true
  else
    s.board.all fun row => !(row.contains Cell.empty)

/-! ## `KInARow.py`: Zobrist hashing -/

/-- The Zobrist key table built by `init_zobrist`: one key per
`(row, col, token)` triple.  The keys themselves are 64-bit values drawn from
`random.getrandbits(64)`; the table is modelled as an arbitrary function. -/
abbrev ZKeys := ℕ → ℕ → Player → ℕ

/-- The contribution of one cell inside `compute_zobrist`: the key of the
token held there, or nothing for other cells (`h ^= key` is only executed
when `board[r][c]` is `'X'` or `'O'`; XOR-ing `0` is the same as skipping). -/
def cellKey (keys : ZKeys) (b : Board) (r c : ℕ) : ℕ :=
  match cellN b r c with
  | Cell.X => keys r c Player.X
  | Cell.O => keys r c Player.O
  | _ => 0

/-- Embeds `compute_zobrist(state)`: fold XOR over all cells in row-major order. -/
def compute_zobrist (keys : ZKeys) (s : State) : ℕ :=
  ((List.range (rowsOf s.board)).flatMap fun r =>
    (List.range (colsOf s.board)).map fun c => (r, c)).foldl
    (fun h rc => h ^^^ cellKey keys s.board rc.1 rc.2) 0

/-! ## `KInARow.py`: minimax search -/

/-- Search values: Python mixes integer evaluations with `±math.inf`. -/
abbrev Val := WithBot (WithTop ℤ)

def toVal (z : ℤ) : Val := ((z : WithTop ℤ) : Val)

def evalv (k : ℕ) (s : State) : Val := toVal (static_eval k s)

/-- One entry of `child_list` / `ordered_children`: `(move, child_state,
eval_value)`. -/
abbrev Child := (ℕ × ℕ) × State × ℤ

/-- The unsorted `child_list`: each available move applied to the state and
scored with `static_eval`. -/
def childList (k : ℕ) (s : State) : List Child :=
  (get_available_moves s).map fun m => (m, applyU s m, static_eval k (applyU s m))

/-- Embeds `child_list.sort(key=lambda x: x[2], reverse=True)` for `X` (descending)
or `child_list.sort(key=lambda x: x[2])` for `O` (ascending); `mergeSort` is
stable, like Python's `sort`. -/
def orderChildren (p : Player) (l : List Child) : List Child :=
  match p with
  | .X => l.mergeSort fun a b => b.2.2 ≤ a.2.2
  | .O => l.mergeSort fun a b => a.2.2 ≤ b.2.2

def orderedChildren (k : ℕ) (s : State) : List Child :=
  orderChildren s.whose_move (childList k s)

/-- The maximizing loop of `minimax` (`current_player == "X"`): fold over the
ordered children, keeping the running best and, when `pruning` is set,
raising `alpha` and breaking as soon as `beta <= alpha`.  `f` is the
recursive call at depth `depth_remaining - 1`. -/
def searchMax (f : State → Val → Val → Val) (pruning : Bool) :
    List Child → Val → Val → Val → Val
  | [], best, _, _ => best
  | c :: rest, best, alpha, beta =>
    let v := f c.2.1 alpha beta
    let best' := max best v
    if pruning then
      let alpha' := max alpha best'
      if beta ≤ alpha' then best'
      else searchMax f pruning rest best' alpha' beta
    else searchMax f pruning rest best' alpha beta

/-- The minimizing loop of `minimax` (`current_player == "O"`). -/
def searchMin (f : State → Val → Val → Val) (pruning : Bool) :
    List Child → Val → Val → Val → Val
  | [], best, _, _ => best
  | c :: rest, best, alpha, beta =>
    let v := f c.2.1 alpha beta
    let best' := min best v
    if pruning then
      let beta' := min beta best'
      if beta' ≤ alpha then best'
      else searchMin f pruning rest best' alpha beta'
    else searchMin f pruning rest best' alpha beta

/-- Embeds `minimax(state, depth_remaining, pruning, alpha, beta)` with
`use_zobrist=False` (its default: the transposition-table branch is skipped)
and `order_moves=True` (the value `make_move` always passes).  At depth 0 or
on a terminal state it returns `static_eval`; otherwise it builds the ordered
children and runs the maximizing or minimizing loop according to
`state.whose_move`. -/
def minimax (k : ℕ) (pruning : Bool) : ℕ → State → Val → Val → Val
  | 0, s, _, _ => evalv k s
  | d + 1, s, alpha, beta =>
    if is_terminal k s then evalv k s
    else
      match s.whose_move with
      | .X => searchMax (fun cs a b => minimax k pruning d cs a b) pruning
          (orderedChildren k s) ⊥ alpha beta
      | .O => searchMin (fun cs a b => minimax k pruning d cs a b) pruning
          (orderedChildren k s) ⊤ alpha beta

/-- The root loop of `make_move`: track `best_move`/`best_value` with strict
improvement (`>` for `X`, `<` for `O`), raise `alpha` (for `X`) or lower
`beta` (for `O`) on improvement, and, when `use_alpha_beta` is set, break as
soon as `beta <= alpha`. -/
def rootLoop (f : State → Val → Val → Val) (playing : Player) (useAB : Bool) :
    List Child → Option (ℕ × ℕ) → Val → Val → Val → Option (ℕ × ℕ) × Val
  | [], bm, bv, _, _ => (bm, bv)
  | c :: rest, bm, bv, alpha, beta =>
    let v := f c.2.1 alpha beta
    let upd : Option (ℕ × ℕ) × Val × Val × Val :=
      match playing with
      | .X => if bv < v then (some c.1, v, max alpha v, beta) else (bm, bv, alpha, beta)
      | .O => if v < bv then (some c.1, v, alpha, min beta v) else (bm, bv, alpha, beta)
    if useAB && decide (upd.2.2.2 ≤ upd.2.2.1) then (upd.1, upd.2.1)
    else rootLoop f playing useAB rest upd.1 upd.2.1 upd.2.2.1 upd.2.2.2

/-- The three ways the move-choice part of `make_move` can end: a chosen
`best_move` with its `best_value`; the `ValueError("No valid moves
available!")` raised when `best_move is None` and `available_moves` is empty;
or the `random.choice(available_moves)` fallback taken when `best_move is
None` but moves exist (the concrete random pick is not modelled — only that
this branch was reached, with the list the choice would be made from). -/
inductive MoveOutcome where
  | ok (mv : ℕ × ℕ) (v : Val)
  | raiseNoMoves
  | fallback (avail : List (ℕ × ℕ))
deriving DecidableEq, Repr

/-- The move-decision core of `make_move(current_state, ..., use_alpha_beta,
max_ply)` with `use_zobrist_hashing=False` (its default): order the root
children by `self.playing`, run the root loop with `alpha = -inf`,
`beta = inf` and initial `best_value = -inf` (for `X`) or `inf` (for `O`),
then dispatch on `best_move`.  Utterance generation, timing and history
bookkeeping are omitted; the returned new state is `apply_move` of the chosen
move, determined by it. -/
def make_move_core (k : ℕ) (playing : Player) (s : State) (useAB : Bool)
    (maxPly : ℕ) : MoveOutcome :=
  let avail := get_available_moves s
  let ordered := orderChildren playing (childList k s)
  let init : Val := match playing with | .X => ⊥ | .O => ⊤
  let r := rootLoop (fun cs a b => minimax k useAB (maxPly - 1) cs a b)
    playing useAB ordered none init ⊥ ⊤
  match r.1 with
  | none => if avail.isEmpty then .raiseNoMoves else .fallback avail
  | some m => .ok m r.2

/-! ## Basic board lemmas -/

lemma colsOf_eq_getD (b : Board) : colsOf b = (b.getD 0 []).length := by
  cases b <;> rfl

lemma rowsOf_setCell (b : Board) (r c : ℕ) (v : Cell) :
    rowsOf (setCell b r c v) = rowsOf b := by
  simp [rowsOf, setCell]

lemma getD_setCell_ne (b : Board) {i r : ℕ} (c : ℕ) (v : Cell) (h : i ≠ r) :
    (setCell b r c v).getD i [] = b.getD i [] := by
  simp [setCell, List.getD_eq_getElem?_getD, List.getElem?_set_ne (Ne.symm h)]

lemma getD_setCell_self (b : Board) {r : ℕ} (c : ℕ) (v : Cell) (h : r < b.length) :
    (setCell b r c v).getD r [] = (b.getD r []).set c v := by
  simp [setCell, List.getD_eq_getElem?_getD, List.getElem?_set_self h]

lemma setCell_oob (b : Board) {r : ℕ} (c : ℕ) (v : Cell) (h : ¬ r < b.length) :
    setCell b r c v = b :=
  List.set_eq_of_length_le (by omega)

lemma colsOf_setCell (b : Board) (r c : ℕ) (v : Cell) :
    colsOf (setCell b r c v) = colsOf b := by
  rw [colsOf_eq_getD, colsOf_eq_getD]
  rcases eq_or_ne r 0 with rfl | h
  · by_cases hb : 0 < b.length
    · rw [getD_setCell_self b c v hb, List.length_set]
    · rw [setCell_oob b c v (by omega)]
  · rw [getD_setCell_ne b c v (Ne.symm h)]

lemma cellN_setCell_self (b : Board) {r c : ℕ} (v : Cell) (hr : r < b.length)
    (hc : c < (b.getD r []).length) :
    cellN (setCell b r c v) r c = v := by
  unfold cellN
  rw [getD_setCell_self b c v hr, List.getD_eq_getElem?_getD,
    List.getElem?_set_self hc]
  rfl

lemma cellN_setCell_ne (b : Board) {i j r c : ℕ} (v : Cell) (h : (i, j) ≠ (r, c)) :
    cellN (setCell b r c v) i j = cellN b i j := by
  rcases eq_or_ne i r with rfl | hir
  · have hj : j ≠ c := by
      intro hj; exact h (by simp [hj])
    by_cases hi : i < b.length
    · unfold cellN
      rw [getD_setCell_self b c v hi, List.getD_eq_getElem?_getD,
        List.getElem?_set_ne (Ne.symm hj), ← List.getD_eq_getElem?_getD]
    · rw [setCell_oob b c v hi]
  · unfold cellN
    rw [getD_setCell_ne b c v hir]

lemma WF_setCell {b : Board} (r c : ℕ) (v : Cell) (h : WF b) :
    WF (setCell b r c v) := by
  by_cases hr : r < b.length
  · intro row hrow
    rw [colsOf_setCell]
    rcases List.mem_or_eq_of_mem_set hrow with hmem | rfl
    · exact h row hmem
    · rw [List.length_set]
      exact h _ (List.getD_eq_getElem b [] hr ▸ List.getElem_mem hr)
  · rw [setCell_oob b c v hr]
    exact h

lemma WF_applyU {s : State} (mv : ℕ × ℕ) (h : WF s.board) :
    WF (applyU s mv).board := WF_setCell mv.1 mv.2 _ h

/-- Row length under well-formedness. -/
lemma row_len_of_WF {b : Board} (hWF : WF b) {r : ℕ} (hr : r < b.length) :
    (b.getD r []).length = colsOf b :=
  hWF _ (List.getD_eq_getElem b [] hr ▸ List.getElem_mem hr)

/-! ## C8 / C9: the state transition `apply_move` -/

lemma pyIdx_coe (len : ℕ) (i : ℕ) :
    pyIdx len (i : ℤ) = if i < len then some i else none := by
  unfold pyIdx
  by_cases h : i < len
  · simp [h]
  · rw [if_neg (by push_neg; intro; exact_mod_cast Nat.le_of_not_lt h),
      if_neg (by push_neg; intro; omega), if_neg h]

lemma apply_move_eval (s : State) (r c : ℕ) (hr : r < s.board.length)
    (hc : c < (s.board.getD r []).length) :
    apply_move s ((r : ℤ), (c : ℤ)) =
      if cellN s.board r c = Cell.empty then .ok (applyU s (r, c))
      else .error .invalidMove := by
  unfold apply_move
  rw [pyIdx_coe, if_pos hr]
  dsimp only
  rw [pyIdx_coe, if_pos hc]
  dsimp only
  by_cases he : cellN s.board r c = Cell.empty
  · rw [if_neg (by simpa [cellN] using he), if_pos he]
    rfl
  · rw [if_pos (by simpa [cellN] using he), if_neg he]

lemma apply_move_oob_row (s : State) (r c : ℕ) (hr : ¬ r < s.board.length) :
    apply_move s ((r : ℤ), (c : ℤ)) = .error .indexError := by
  unfold apply_move
  rw [pyIdx_coe, if_neg hr]

lemma apply_move_oob_col (s : State) (r c : ℕ) (hr : r < s.board.length)
    (hc : ¬ c < (s.board.getD r []).length) :
    apply_move s ((r : ℤ), (c : ℤ)) = .error .indexError := by
  unfold apply_move
  rw [pyIdx_coe, if_pos hr]
  dsimp only
  rw [pyIdx_coe, if_neg hc]

/-- C8 (amended): for moves with non-negative coordinates, `apply_move`
fails exactly when the target is out of bounds (with `IndexError`) or
occupied (with the `ValueError` that is the InvalidMove condition), and
succeeds otherwise. -/
theorem apply_move_error_conditions (s : State) (r c : ℕ) (hWF : WF s.board) :
    ((apply_move s ((r : ℤ), (c : ℤ))).isOk ↔
      (r < rowsOf s.board ∧ c < colsOf s.board ∧ cellN s.board r c = Cell.empty)) ∧
    (apply_move s ((r : ℤ), (c : ℤ)) = .error .indexError ↔
      ¬(r < rowsOf s.board ∧ c < colsOf s.board)) ∧
    (apply_move s ((r : ℤ), (c : ℤ)) = .error .invalidMove ↔
      (r < rowsOf s.board ∧ c < colsOf s.board ∧ cellN s.board r c ≠ Cell.empty)) := by
  by_cases hr : r < s.board.length
  · by_cases hc : c < colsOf s.board
    · have hc' : c < (s.board.getD r []).length := by rw [row_len_of_WF hWF hr]; exact hc
      rw [apply_move_eval s r c hr hc']
      by_cases he : cellN s.board r c = Cell.empty
      · rw [if_pos he]; simp [rowsOf, hr, hc, he, Except.isOk, Except.toBool]
      · rw [if_neg he]; simp [rowsOf, hr, hc, he, Except.isOk, Except.toBool]
    · have hc' : ¬ c < (s.board.getD r []).length := by rw [row_len_of_WF hWF hr]; exact hc
      rw [apply_move_oob_col s r c hr hc']
      simp [rowsOf, hr, hc, Except.isOk, Except.toBool]
  · rw [apply_move_oob_row s r c hr]
    simp [rowsOf, hr, Except.isOk, Except.toBool]

/-- C9: a successful `apply_move` on a valid move (in-bounds, empty target)
returns a state that differs from the input only at the target cell — which
now holds the mover's token — and in `whose_move`, which is flipped; board
dimensions are unchanged.  (`apply_move` deep-copies the state before
writing, so in the Python code the input object is never mutated; in this
functional embedding non-mutation is inherent and the frame condition below
is the observable content.) -/
theorem apply_move_frame (s : State) (r c : ℕ) (hWF : WF s.board)
    (hr : r < rowsOf s.board) (hc : c < colsOf s.board)
    (hemp : cellN s.board r c = Cell.empty) :
    ∃ t : State, apply_move s ((r : ℤ), (c : ℤ)) = .ok t ∧
      cellN t.board r c = s.whose_move.cell ∧
      (∀ i j : ℕ, (i, j) ≠ (r, c) → cellN t.board i j = cellN s.board i j) ∧
      t.whose_move = s.whose_move.other ∧
      rowsOf t.board = rowsOf s.board ∧ colsOf t.board = colsOf s.board := by
  have hc' : c < (s.board.getD r []).length := by
    rw [row_len_of_WF hWF hr]; exact hc
  refine ⟨applyU s (r, c), ?_, ?_, ?_, rfl, ?_, ?_⟩
  · rw [apply_move_eval s r c hr hc', if_pos hemp]
  · exact cellN_setCell_self s.board _ hr hc'
  · intro i j hij
    exact cellN_setCell_ne s.board _ hij
  · exact rowsOf_setCell s.board r c _
  · exact colsOf_setCell s.board r c _

/-- Witness for `apply_move_frame` at a concrete input: X plays (0,1) on a
2×2 board with one O. -/
theorem apply_move_frame_witness :
    WF [[Cell.O, Cell.empty], [Cell.empty, Cell.empty]] ∧
    (0 : ℕ) < rowsOf [[Cell.O, Cell.empty], [Cell.empty, Cell.empty]] ∧
    ∃ t : State,
      apply_move ⟨[[Cell.O, Cell.empty], [Cell.empty, Cell.empty]], Player.X⟩
          ((0 : ℕ), ((1 : ℕ) : ℤ)) = .ok t ∧
      cellN t.board 0 1 = Player.X.cell ∧
      (∀ i j : ℕ, (i, j) ≠ (0, 1) →
        cellN t.board i j =
          cellN [[Cell.O, Cell.empty], [Cell.empty, Cell.empty]] i j) ∧
      t.whose_move = Player.X.other ∧
      rowsOf t.board = 2 ∧ colsOf t.board = 2 :=
  ⟨by decide, by decide,
    apply_move_frame ⟨[[Cell.O, Cell.empty], [Cell.empty, Cell.empty]], Player.X⟩
      0 1 (by decide) (by decide) (by decide) (by decide)⟩

/-- C8 counterexample: the move `(-1, 0)` is out of bounds for a 2×2 board
(its row coordinate is negative), yet `apply_move` does not fail: Python's
negative indexing wraps around and the move succeeds, writing the mover's
token into the last row. -/
theorem apply_move_negative_index_succeeds :
    ¬(0 ≤ (-1 : ℤ)) ∧
    apply_move ⟨[[Cell.empty, Cell.empty], [Cell.empty, Cell.empty]], Player.X⟩
        (-1, 0) =
      .ok ⟨[[Cell.empty, Cell.empty], [Cell.X, Cell.empty]], Player.O⟩ := by
  constructor
  · decide
  · rfl

/-- Witness for `apply_move_error_conditions` at a concrete input: on a board
whose only cell is occupied, `apply_move` at (0,0) raises the InvalidMove
`ValueError`, and at (5,0) raises `IndexError`. -/
theorem apply_move_error_conditions_witness :
    WF [[Cell.O]] ∧
    (apply_move ⟨[[Cell.O]], Player.X⟩ (((0 : ℕ) : ℤ), ((0 : ℕ) : ℤ)) =
        .error .invalidMove ↔
      ((0 : ℕ) < rowsOf [[Cell.O]] ∧ (0 : ℕ) < colsOf [[Cell.O]] ∧
        cellN [[Cell.O]] 0 0 ≠ Cell.empty)) :=
  ⟨by decide,
    (apply_move_error_conditions ⟨[[Cell.O]], Player.X⟩ 0 0 (by decide)).2.2⟩

/-! ## C10: a last move on a non-token cell -/

/-- C10: when the cell named by `lastMove` holds neither an `'X'` nor an
`'O'` token (it is Empty or forbidden), `check_win_condition` returns `None`
(Ongoing) immediately — for every board, including boards with no empty cell
left, so neither the axis checks nor the board-full draw check influence the
result. -/
theorem check_win_non_token_ongoing (s : State) (r c k : ℕ)
    (hx : cellN s.board r c ≠ Cell.X) (ho : cellN s.board r c ≠ Cell.O) :
    check_win_condition s (some (r, c)) k = .ongoing := by
  unfold check_win_condition
  dsimp only
  rw [if_pos (by simp [hx, ho])]

/-- Witness for `check_win_non_token_ongoing`: a 2×2 board with no Empty
cell at all, whose forbidden cell is named as the last move: the detector
reports Ongoing, not Draw. -/
theorem check_win_non_token_ongoing_witness :
    cellN [[Cell.X, Cell.forb], [Cell.O, Cell.X]] 0 1 ≠ Cell.X ∧
    check_win_condition ⟨[[Cell.X, Cell.forb], [Cell.O, Cell.X]], Player.O⟩
        (some (0, 1)) 3 = .ongoing :=
  ⟨by decide,
    check_win_non_token_ongoing ⟨[[Cell.X, Cell.forb], [Cell.O, Cell.X]], Player.O⟩
      0 1 3 (by decide) (by decide)⟩

/-! ## C7: Zobrist hashing -/

/-- The token (if any) held at a cell. -/
def tokenAt (b : Board) (r c : ℕ) : Option Player :=
  match cellN b r c with
  | Cell.X => some Player.X
  | Cell.O => some Player.O
  | _ => none

/-- All board coordinates in row-major order. -/
def boardCoords (b : Board) : List (ℕ × ℕ) :=
  (List.range (rowsOf b)).flatMap fun r =>
    (List.range (colsOf b)).map fun c => (r, c)

/-- The hash value as the spec states it: the XOR, over exactly the occupied
cells, of the per-(cell, token) key; Empty (and forbidden) cells contribute
nothing. -/
def specZobrist (keys : ZKeys) (b : Board) : ℕ :=
  ((boardCoords b).filterMap fun rc =>
    (tokenAt b rc.1 rc.2).map fun p => keys rc.1 rc.2 p).foldl
    (fun h x => h ^^^ x) 0

lemma cellKey_eq_tokenAt (keys : ZKeys) (b : Board) (r c : ℕ) :
    cellKey keys b r c = ((tokenAt b r c).map fun p => keys r c p).getD 0 := by
  unfold cellKey tokenAt
  cases cellN b r c <;> rfl

lemma foldl_xor_filterMap {α : Type} (g : α → ℕ) (f : α → Option ℕ)
    (hf : ∀ x, (f x).getD 0 = g x) :
    ∀ (l : List α) (a : ℕ),
      l.foldl (fun h x => h ^^^ g x) a = (l.filterMap f).foldl (fun h v => h ^^^ v) a := by
  intro l
  induction l with
  | nil => intro a; rfl
  | cons x xs ih =>
    intro a
    have hx := hf x
    cases hfx : f x with
    | none =>
      rw [hfx] at hx
      simp only [List.foldl_cons, List.filterMap_cons, hfx, ← hx]
      simp only [Option.getD_none, Nat.xor_zero]
      exact ih a
    | some v =>
      rw [hfx] at hx
      simp only [List.foldl_cons, List.filterMap_cons, hfx, ← hx]
      exact ih _

lemma foldl_xor_lt {α : Type} (g : α → ℕ) (n : ℕ) :
    ∀ (l : List α) (a : ℕ), (∀ x ∈ l, g x < 2 ^ n) → a < 2 ^ n →
      l.foldl (fun h x => h ^^^ g x) a < 2 ^ n := by
  intro l
  induction l with
  | nil => intro a _ ha; exact ha
  | cons x xs ih =>
    intro a hl ha
    exact ih _ (fun y hy => hl y (by simp [hy]))
      (Nat.xor_lt_two_pow ha (hl x (by simp)))

/-- C7: the Zobrist hash of a state equals the XOR over its occupied cells
of the per-(cell, token) key (Empty cells contributing nothing); any two
states with identical occupied-cell/token assignments — regardless of the
move order that produced them, and regardless of empty-versus-forbidden
differences — hash identically; and when every key is a 64-bit value, so is
the hash.  (Hashing the same unchanged state twice trivially yields the same
value, since `compute_zobrist` is a pure function of the board; the
invariance conjunct subsumes this with `s₂ := s₁`.) -/
theorem compute_zobrist_spec (keys : ZKeys) (s₁ s₂ : State)
    (hrows : rowsOf s₁.board = rowsOf s₂.board)
    (hcols : colsOf s₁.board = colsOf s₂.board)
    (hassign : ∀ r c, tokenAt s₁.board r c = tokenAt s₂.board r c)
    (hbound : ∀ r c p, keys r c p < 2 ^ 64) :
    compute_zobrist keys s₁ = specZobrist keys s₁.board ∧
    compute_zobrist keys s₁ = compute_zobrist keys s₂ ∧
    compute_zobrist keys s₁ < 2 ^ 64 := by
  have hcompute : ∀ s : State, compute_zobrist keys s =
      (boardCoords s.board).foldl (fun h rc => h ^^^ cellKey keys s.board rc.1 rc.2) 0 :=
    fun s => rfl
  refine ⟨?_, ?_, ?_⟩
  · rw [hcompute, specZobrist]
    exact foldl_xor_filterMap (fun rc : ℕ × ℕ => cellKey keys s₁.board rc.1 rc.2)
      (fun rc : ℕ × ℕ => (tokenAt s₁.board rc.1 rc.2).map fun p => keys rc.1 rc.2 p)
      (fun rc => (cellKey_eq_tokenAt keys s₁.board rc.1 rc.2).symm) _ 0
  · rw [hcompute, hcompute]
    have hco : boardCoords s₁.board = boardCoords s₂.board := by
      unfold boardCoords; rw [hrows, hcols]
    rw [hco]
    have hfun : (fun (h : ℕ) (rc : ℕ × ℕ) => h ^^^ cellKey keys s₁.board rc.1 rc.2) =
        fun h rc => h ^^^ cellKey keys s₂.board rc.1 rc.2 := by
      funext h rc
      rw [cellKey_eq_tokenAt, cellKey_eq_tokenAt, hassign rc.1 rc.2]
    rw [hfun]
  · rw [hcompute]
    refine foldl_xor_lt _ 64 _ 0 (fun rc _ => ?_) (by positivity)
    rw [cellKey_eq_tokenAt]
    cases tokenAt s₁.board rc.1 rc.2 with
    | none => positivity
    | some p => exact hbound rc.1 rc.2 p

/-- Witness for `compute_zobrist_spec`: two 1×2 states with the same X at
(0,0), one with an Empty and one with a forbidden second cell, under the
constant key table 1. -/
theorem compute_zobrist_spec_witness :
    compute_zobrist (fun _ _ _ => 1) ⟨[[Cell.X, Cell.empty]], Player.X⟩ =
      specZobrist (fun _ _ _ => 1) [[Cell.X, Cell.empty]] ∧
    compute_zobrist (fun _ _ _ => 1) ⟨[[Cell.X, Cell.empty]], Player.X⟩ =
      compute_zobrist (fun _ _ _ => 1) ⟨[[Cell.X, Cell.forb]], Player.O⟩ ∧
    compute_zobrist (fun _ _ _ => 1) ⟨[[Cell.X, Cell.empty]], Player.X⟩ < 2 ^ 64 := by
  refine compute_zobrist_spec _ _ _ rfl rfl ?_ ?_
  · intro r c
    rcases r with _ | r
    · rcases c with _ | c
      · rfl
      · rcases c with _ | c <;> rfl
    · rfl
  · intro r c p
    norm_num

/-! ## C6: the static evaluator -/

/-- The spec's per-sequence contribution for one player: `+1000` if all `k`
cells belong to that player, `+50` if exactly `k−1` cells belong to that
player and the remainder are Empty, `+10` if exactly `k−2` cells belong to
that player and the remainder are Empty, and `0` otherwise (in particular
for any sequence containing the opponent's token or a forbidden cell). -/
def seqScoreSpec (k : ℕ) (player : Cell) (seq : List Cell) : ℕ :=
  if seq.count player = k then 1000
  else if seq.count player + 1 = k ∧ (∀ c ∈ seq, c = player ∨ c = Cell.empty) then 50
  else if seq.count player + 2 = k ∧ (∀ c ∈ seq, c = player ∨ c = Cell.empty) then 10
  else 0

lemma count_pair_le (p : Cell) (hp : p ≠ Cell.empty) :
    ∀ l : List Cell, l.count p + l.count Cell.empty ≤ l.length ∧
      (l.count p + l.count Cell.empty = l.length ↔ ∀ c ∈ l, c = p ∨ c = Cell.empty) := by
  intro l
  induction l with
  | nil => simp
  | cons x xs ih =>
    obtain ⟨ih1, ih2⟩ := ih
    rw [List.length_cons]
    by_cases hx : x = p
    · subst hx
      rw [List.count_cons_self, List.count_cons_of_ne (Ne.symm hp)]
      refine ⟨by omega, ?_, ?_⟩
      · intro h c hc
        rcases List.mem_cons.mp hc with rfl | hc
        · exact Or.inl rfl
        · exact ih2.mp (by omega) c hc
      · intro h
        have := ih2.mpr (fun c hc => h c (List.mem_cons_of_mem _ hc))
        omega
    · by_cases he : x = Cell.empty
      · subst he
        rw [List.count_cons_of_ne hp, List.count_cons_self]
        refine ⟨by omega, ?_, ?_⟩
        · intro h c hc
          rcases List.mem_cons.mp hc with rfl | hc
          · exact Or.inr rfl
          · exact ih2.mp (by omega) c hc
        · intro h
          have := ih2.mpr (fun c hc => h c (List.mem_cons_of_mem _ hc))
          omega
      · rw [List.count_cons_of_ne (Ne.symm hx), List.count_cons_of_ne (Ne.symm he)]
        refine ⟨by omega, ?_, ?_⟩
        · intro h
          exact absurd h (by omega)
        · intro h
          exact absurd (h x (by simp)) (by simp [hx, he])

lemma seqScore_eq_spec (k : ℕ) (p : Cell) (hp : p ≠ Cell.empty) (seq : List Cell)
    (hlen : seq.length = k) :
    seqScore k p seq = seqScoreSpec k p seq := by
  obtain ⟨hle, hiff⟩ := count_pair_le p hp seq
  unfold seqScore seqScoreSpec
  have e1 : (seq.count p + 1 = k ∧ seq.count Cell.empty = 1) ↔
      (seq.count p + 1 = k ∧ ∀ c ∈ seq, c = p ∨ c = Cell.empty) := by
    constructor
    · rintro ⟨h2, h3⟩
      exact ⟨h2, hiff.mp (by omega)⟩
    · rintro ⟨h2, h3⟩
      have := hiff.mpr h3
      exact ⟨h2, by omega⟩
  have e2 : (seq.count p + 2 = k ∧ seq.count Cell.empty = 2) ↔
      (seq.count p + 2 = k ∧ ∀ c ∈ seq, c = p ∨ c = Cell.empty) := by
    constructor
    · rintro ⟨h2, h3⟩
      exact ⟨h2, hiff.mp (by omega)⟩
    · rintro ⟨h2, h3⟩
      have := hiff.mpr h3
      exact ⟨h2, by omega⟩
  simp only [e1, e2]

lemma seq_length_eq (s : State) (k : ℕ) :
    ∀ seq ∈ get_all_possible_sequences s k, seq.length = k := by
  intro seq hseq
  unfold get_all_possible_sequences at hseq
  simp only [List.mem_append, List.mem_flatMap, List.mem_map] at hseq
  rcases hseq with ((⟨r, _, c, _, rfl⟩ | ⟨c, _, r, _, rfl⟩) | ⟨r, _, c, _, rfl⟩) | ⟨r, _, c, _, rfl⟩ <;>
    simp

/-- C6: on a well-formed board the static evaluator's value is exactly
(X total) − (O total), where each player's total sums the spec's
per-sequence contributions (`seqScoreSpec`) over every length-`k`
contiguous sequence in the four orientations covering the board.  The
evaluator is a total function by construction. -/
theorem static_eval_spec (k : ℕ) (s : State) (hk : 1 ≤ k) (hWF : WF s.board) :
    static_eval k s =
      (((get_all_possible_sequences s k).map (seqScoreSpec k Cell.X)).sum : ℤ) -
      (((get_all_possible_sequences s k).map (seqScoreSpec k Cell.O)).sum : ℤ) := by
  unfold static_eval count_sequences
  have hX : (get_all_possible_sequences s k).map (seqScore k Cell.X) =
      (get_all_possible_sequences s k).map (seqScoreSpec k Cell.X) :=
    List.map_congr_left fun seq hseq =>
      seqScore_eq_spec k Cell.X (by simp) seq (seq_length_eq s k seq hseq)
  have hO : (get_all_possible_sequences s k).map (seqScore k Cell.O) =
      (get_all_possible_sequences s k).map (seqScoreSpec k Cell.O) :=
    List.map_congr_left fun seq hseq =>
      seqScore_eq_spec k Cell.O (by simp) seq (seq_length_eq s k seq hseq)
  rw [hX, hO]

/-- Witness for `static_eval_spec` on a concrete 3×3 board with k = 3. -/
theorem static_eval_spec_witness :
    static_eval 3 ⟨[[Cell.X, Cell.X, Cell.empty],
                    [Cell.empty, Cell.O, Cell.empty],
                    [Cell.empty, Cell.empty, Cell.empty]], Player.X⟩ =
      (((get_all_possible_sequences
          ⟨[[Cell.X, Cell.X, Cell.empty],
            [Cell.empty, Cell.O, Cell.empty],
            [Cell.empty, Cell.empty, Cell.empty]], Player.X⟩ 3).map
            (seqScoreSpec 3 Cell.X)).sum : ℤ) -
      (((get_all_possible_sequences
          ⟨[[Cell.X, Cell.X, Cell.empty],
            [Cell.empty, Cell.O, Cell.empty],
            [Cell.empty, Cell.empty, Cell.empty]], Player.X⟩ 3).map
            (seqScoreSpec 3 Cell.O)).sum : ℤ) :=
  static_eval_spec 3 _ (by decide) (by decide)

/-! ## Geometry of the last-move win test -/

/-- An in-bounds cell holding `p`: the condition tested at each step of the
`_count_in_direction` loop. -/
def okCell (b : Board) (p : Cell) (r c : ℤ) : Prop :=
  inBoundsB b r c = true ∧ cellZ b r c = p

instance (b : Board) (p : Cell) (r c : ℤ) : Decidable (okCell b p r c) := by
  unfold okCell; infer_instance

lemma countFrom_ge (b : Board) (p : Cell) (dr dc : ℤ) :
    ∀ (m fuel : ℕ) (r c : ℤ), m ≤ fuel →
      (∀ i : ℕ, i < m → okCell b p (r + i * dr) (c + i * dc)) →
      m ≤ countFrom b p dr dc fuel r c := by
  intro m
  induction m with
  | zero => intro fuel r c _ _; exact Nat.zero_le _
  | succ n ih =>
    intro fuel r c hm hok
    obtain ⟨f, rfl⟩ : ∃ f, fuel = f + 1 := ⟨fuel - 1, by omega⟩
    have h0 : okCell b p r c := by
      have := hok 0 (by omega)
      simpa using this
    unfold countFrom
    rw [if_pos (by simp [h0.1, h0.2])]
    have : n ≤ countFrom b p dr dc f (r + dr) (c + dc) := by
      refine ih f (r + dr) (c + dc) (by omega) ?_
      intro i hi
      have h1 := hok (i + 1) (by omega)
      have e1 : r + (i + 1 : ℕ) * dr = r + dr + i * dr := by push_cast; ring
      have e2 : c + (i + 1 : ℕ) * dc = c + dc + i * dc := by push_cast; ring
      rw [e1, e2] at h1
      exact h1
    omega

lemma countFrom_ok (b : Board) (p : Cell) (dr dc : ℤ) :
    ∀ (fuel : ℕ) (r c : ℤ) (i : ℕ), i < countFrom b p dr dc fuel r c →
      okCell b p (r + i * dr) (c + i * dc) := by
  intro fuel
  induction fuel with
  | zero => intro r c i hi; simp [countFrom] at hi
  | succ f ih =>
    intro r c i hi
    unfold countFrom at hi
    by_cases hguard : (inBoundsB b r c && (cellZ b r c == p)) = true
    · rw [if_pos hguard] at hi
      rcases i with _ | j
      · simp only [Bool.and_eq_true, beq_iff_eq] at hguard
        simpa using And.intro hguard.1 hguard.2
      · have h1 := ih (r + dr) (c + dc) j (by omega)
        have e1 : r + dr + j * dr = r + (j + 1 : ℕ) * dr := by push_cast; ring
        have e2 : c + dc + j * dc = c + (j + 1 : ℕ) * dc := by push_cast; ring
        rw [e1, e2] at h1
        exact h1
    · rw [if_neg hguard] at hi
      omega

/-- Membership shape of `dirs4`, for case analyses. -/
lemma dirs4_cases {d : ℤ × ℤ} (hd : d ∈ dirs4) :
    d = (0, 1) ∨ d = (1, 0) ∨ d = (1, 1) ∨ d = (1, -1) := by
  simpa [dirs4] using hd

/-- Any in-bounds stretch along one of the rays used by the detector is
shorter than `rows + cols`. -/
lemma stretch_lt (b : Board) (p : Cell) (dr dc : ℤ)
    (hd : dr = 1 ∨ dr = -1 ∨ (dr = 0 ∧ (dc = 1 ∨ dc = -1)))
    (r c : ℤ) (n : ℕ) (h0 : okCell b p r c) (hn : okCell b p (r + n * dr) (c + n * dc)) :
    n < rowsOf b + colsOf b := by
  obtain ⟨hb0, -⟩ := h0
  obtain ⟨hbn, -⟩ := hn
  unfold inBoundsB at hb0 hbn
  simp only [Bool.and_eq_true, decide_eq_true_eq] at hb0 hbn
  obtain ⟨⟨⟨h0a, h0b⟩, h0c⟩, h0d⟩ := hb0
  obtain ⟨⟨⟨hna, hnb⟩, hnc⟩, hnd⟩ := hbn
  rcases hd with rfl | rfl | ⟨rfl, hdc⟩
  · omega
  · omega
  · rcases hdc with rfl | rfl <;> omega

/-- Cells reached by `_count_in_direction`: every step up to the returned
count is an in-bounds cell holding the player's token. -/
lemma cid_ok (b : Board) (p : Cell) (dr dc r c : ℤ) :
    ∀ j : ℕ, 1 ≤ j → j ≤ count_in_direction b r c dr dc p →
      okCell b p (r + j * dr) (c + j * dc) := by
  intro j hj1 hjc
  have h1 := countFrom_ok b p dr dc (rowsOf b + colsOf b + 1) (r + dr) (c + dc)
    (j - 1) (by unfold count_in_direction at hjc; omega)
  have e1 : r + dr + (j - 1 : ℕ) * dr = r + j * dr := by
    rw [Nat.cast_sub hj1]; push_cast; ring
  have e2 : c + dc + (j - 1 : ℕ) * dc = c + j * dc := by
    rw [Nat.cast_sub hj1]; push_cast; ring
  rw [e1, e2] at h1
  exact h1

/-- The loop of `_count_in_direction` counts at least any contiguous matching stretch
(provided the stretch is not longer than the board perimeter, which bounds
the loop fuel). -/
lemma cid_ge (b : Board) (p : Cell) (dr dc r c : ℤ) (m : ℕ)
    (hfuel : m ≤ rowsOf b + colsOf b)
    (h : ∀ j : ℕ, 1 ≤ j → j ≤ m → okCell b p (r + j * dr) (c + j * dc)) :
    m ≤ count_in_direction b r c dr dc p := by
  unfold count_in_direction
  refine countFrom_ge b p dr dc m _ (r + dr) (c + dc) (by omega) ?_
  intro i hi
  have h1 := h (i + 1) (by omega) (by omega)
  have e1 : r + (i + 1 : ℕ) * dr = r + dr + i * dr := by push_cast; ring
  have e2 : c + (i + 1 : ℕ) * dc = c + dc + i * dc := by push_cast; ring
  rw [e1, e2] at h1
  exact h1

/-- The axis total of `check_win_condition` at the moved cell along one
direction: the moved cell counts as 1, plus the contiguous counts forward
and backward. -/
def axisTotal (b : Board) (r c : ℤ) (d : ℤ × ℤ) (p : Cell) : ℕ :=
  1 + count_in_direction b r c d.1 d.2 p + count_in_direction b r c (-d.1) (-d.2) p

/-- A completed run as `_check_full_board` looks for it: `k` consecutive
cells holding `p`, starting at `o` and stepping by `d`. -/
def canonicalRun (b : Board) (p : Cell) (k : ℕ) (o d : ℤ × ℤ) : Prop :=
  ∀ i : ℕ, i < k → okCell b p (o.1 + i * d.1) (o.2 + i * d.2)

lemma dirs4_delta {d : ℤ × ℤ} (hd : d ∈ dirs4) :
    (d.1 = 1 ∨ d.1 = -1 ∨ (d.1 = 0 ∧ (d.2 = 1 ∨ d.2 = -1))) ∧
    (-d.1 = 1 ∨ -d.1 = -1 ∨ (-d.1 = 0 ∧ (-d.2 = 1 ∨ -d.2 = -1))) := by
  rcases dirs4_cases hd with rfl | rfl | rfl | rfl <;> norm_num

/-- If the axis total through a cell reaches `k`, a full `k`-run (in the
canonical orientation) passes through that cell. -/
lemma axis_to_run (b : Board) (p : Cell) (k : ℕ) (hk : 1 ≤ k) (r c : ℤ) (d : ℤ × ℤ)
    (h0 : okCell b p r c) (htot : k ≤ axisTotal b r c d p) :
    ∃ t : ℕ, t < k ∧
      canonicalRun b p k (r - t * d.1, c - t * d.2) d ∧
      r - (t : ℤ) * d.1 + t * d.1 = r ∧ c - (t : ℤ) * d.2 + t * d.2 = c := by
  set F := count_in_direction b r c d.1 d.2 p with hF
  set B := count_in_direction b r c (-d.1) (-d.2) p with hB
  refine ⟨min B (k - 1), by omega, ?_, by ring, by ring⟩
  intro i hi
  rcases lt_trichotomy i (min B (k - 1)) with hlt | heq | hgt
  · have hj1 : 1 ≤ min B (k - 1) - i := by omega
    have hjB : min B (k - 1) - i ≤ B := by omega
    have h1 := cid_ok b p (-d.1) (-d.2) r c (min B (k - 1) - i) hj1 hjB
    have e1 : r + (min B (k - 1) - i : ℕ) * -d.1 = r - (min B (k - 1) : ℕ) * d.1 + i * d.1 := by
      rw [Nat.cast_sub (by omega)]; push_cast; ring
    have e2 : c + (min B (k - 1) - i : ℕ) * -d.2 = c - (min B (k - 1) : ℕ) * d.2 + i * d.2 := by
      rw [Nat.cast_sub (by omega)]; push_cast; ring
    rw [e1, e2] at h1
    exact h1
  · have e1 : r - ((min B (k - 1) : ℕ) : ℤ) * d.1 + (i : ℤ) * d.1 = r := by
      rw [heq]; ring
    have e2 : c - ((min B (k - 1) : ℕ) : ℤ) * d.2 + (i : ℤ) * d.2 = c := by
      rw [heq]; ring
    rw [e1, e2]
    exact h0
  · have hj1 : 1 ≤ i - min B (k - 1) := by omega
    have hjF : i - min B (k - 1) ≤ F := by
      unfold axisTotal at htot
      rw [← hF, ← hB] at htot
      omega
    have h1 := cid_ok b p d.1 d.2 r c (i - min B (k - 1)) hj1 hjF
    have e1 : r + (i - min B (k - 1) : ℕ) * d.1 = r - (min B (k - 1) : ℕ) * d.1 + i * d.1 := by
      rw [Nat.cast_sub (by omega)]; push_cast; ring
    have e2 : c + (i - min B (k - 1) : ℕ) * d.2 = c - (min B (k - 1) : ℕ) * d.2 + i * d.2 := by
      rw [Nat.cast_sub (by omega)]; push_cast; ring
    rw [e1, e2] at h1
    exact h1

/-- Conversely, a `k`-run through a cell makes that cell's axis total
reach `k`. -/
lemma run_to_axis (b : Board) (p : Cell) (k : ℕ) (o d : ℤ × ℤ) (hd : d ∈ dirs4)
    (t : ℕ) (ht : t < k) (hrun : canonicalRun b p k o d) :
    k ≤ axisTotal b (o.1 + t * d.1) (o.2 + t * d.2) d p := by
  have hcen : okCell b p (o.1 + t * d.1) (o.2 + t * d.2) := hrun t ht
  have hlast : okCell b p (o.1 + (k - 1 : ℕ) * d.1) (o.2 + (k - 1 : ℕ) * d.2) :=
    hrun (k - 1) (by omega)
  have hfirst : okCell b p (o.1 + (0 : ℕ) * d.1) (o.2 + (0 : ℕ) * d.2) :=
    hrun 0 (by omega)
  -- backward stretch of length t
  have hBt : t ≤ count_in_direction b (o.1 + t * d.1) (o.2 + t * d.2) (-d.1) (-d.2) p := by
    refine cid_ge b p (-d.1) (-d.2) _ _ t ?_ ?_
    · have := stretch_lt b p d.1 d.2 (dirs4_delta hd).1 (o.1 + 0 * d.1) (o.2 + 0 * d.2)
        t (by simpa using hrun 0 (by omega)) ?_
      · omega
      · have e1 : o.1 + 0 * d.1 + t * d.1 = o.1 + t * d.1 := by ring
        have e2 : o.2 + 0 * d.2 + t * d.2 = o.2 + t * d.2 := by ring
        rw [e1, e2]
        exact hcen
    · intro j hj1 hjt
      have h1 := hrun (t - j) (by omega)
      have e1 : o.1 + (t - j : ℕ) * d.1 = o.1 + t * d.1 + j * -d.1 := by
        rw [Nat.cast_sub (by omega)]; push_cast; ring
      have e2 : o.2 + (t - j : ℕ) * d.2 = o.2 + t * d.2 + j * -d.2 := by
        rw [Nat.cast_sub (by omega)]; push_cast; ring
      rw [e1, e2] at h1
      exact h1
  -- forward stretch of length k - 1 - t
  have hFt : k - 1 - t ≤ count_in_direction b (o.1 + t * d.1) (o.2 + t * d.2) d.1 d.2 p := by
    refine cid_ge b p d.1 d.2 _ _ (k - 1 - t) ?_ ?_
    · have := stretch_lt b p d.1 d.2 (dirs4_delta hd).1 (o.1 + t * d.1) (o.2 + t * d.2)
        (k - 1 - t) hcen ?_
      · omega
      · have h1 := hrun (k - 1) (by omega)
        have e1 : o.1 + (k - 1 : ℕ) * d.1 = o.1 + t * d.1 + (k - 1 - t : ℕ) * d.1 := by
          rw [Nat.cast_sub (show t ≤ k - 1 by omega), Nat.cast_sub (show 1 ≤ k by omega)]
          ring
        have e2 : o.2 + (k - 1 : ℕ) * d.2 = o.2 + t * d.2 + (k - 1 - t : ℕ) * d.2 := by
          rw [Nat.cast_sub (show t ≤ k - 1 by omega), Nat.cast_sub (show 1 ≤ k by omega)]
          ring
        rw [e1, e2] at h1
        exact h1
    · intro j hj1 hjt
      have h1 := hrun (t + j) (by omega)
      have e1 : o.1 + (t + j : ℕ) * d.1 = o.1 + t * d.1 + j * d.1 := by push_cast; ring
      have e2 : o.2 + (t + j : ℕ) * d.2 = o.2 + t * d.2 + j * d.2 := by push_cast; ring
      rw [e1, e2] at h1
      exact h1
  unfold axisTotal
  omega

lemma okCell_intro {b : Board} {p : Cell} {r c : ℤ} (h1 : 0 ≤ r)
    (h2 : r < (rowsOf b : ℤ)) (h3 : 0 ≤ c) (h4 : c < (colsOf b : ℤ))
    (h5 : cellN b r.toNat c.toNat = p) : okCell b p r c := by
  refine ⟨?_, h5⟩
  unfold inBoundsB
  simp only [Bool.and_eq_true, decide_eq_true_eq]
  exact ⟨⟨⟨h1, h2⟩, h3⟩, h4⟩

lemma okCell_elim {b : Board} {p : Cell} {r c : ℤ} (h : okCell b p r c) :
    0 ≤ r ∧ r < (rowsOf b : ℤ) ∧ 0 ≤ c ∧ c < (colsOf b : ℤ) ∧
      cellN b r.toNat c.toNat = p := by
  obtain ⟨hb, hc⟩ := h
  unfold inBoundsB at hb
  simp only [Bool.and_eq_true, decide_eq_true_eq] at hb
  exact ⟨hb.1.1.1, hb.1.1.2, hb.1.2, hb.2, hc⟩

/-- There is a completed `k`-run on the board, in one of the four canonical
orientations. -/
def ExistsRun (b : Board) (p : Cell) (k : ℕ) : Prop :=
  ∃ d ∈ dirs4, ∃ o : ℤ × ℤ, canonicalRun b p k o d

/-- The scan of `_check_full_board` succeeds for a player exactly when a
completed `k`-run of that player exists on the board. -/
lemma hasRunB_iff_existsRun (b : Board) (p : Cell) (k : ℕ) (hk : 1 ≤ k) :
    hasRunB b p k = true ↔ ExistsRun b p k := by
  constructor
  · intro h
    unfold hasRunB at h
    simp only [List.any_eq_true, List.mem_range, Bool.and_eq_true, beq_iff_eq] at h
    obtain ⟨row, hrow, col, hcol, hcellp, hrun4⟩ := h
    unfold runAtB at hrun4
    simp only [Bool.or_eq_true, Bool.and_eq_true, decide_eq_true_eq,
      List.all_eq_true, List.mem_range, beq_iff_eq] at hrun4
    rcases hrun4 with ((⟨hg, hcells⟩ | ⟨hg, hcells⟩) | ⟨⟨hg1, hg2⟩, hcells⟩) | ⟨⟨hg1, hg2⟩, hcells⟩
    · refine ⟨(0, 1), by simp [dirs4], ((row : ℤ), (col : ℤ)), ?_⟩
      intro i hik
      refine okCell_intro (by omega) (by push_cast; omega) (by omega)
        (by push_cast; omega) ?_
      have e1 : ((row : ℤ) + i * 0).toNat = row := by omega
      have e2 : ((col : ℤ) + i * 1).toNat = col + i := by omega
      rw [e1, e2]
      exact hcells i hik
    · refine ⟨(1, 0), by simp [dirs4], ((row : ℤ), (col : ℤ)), ?_⟩
      intro i hik
      refine okCell_intro (by omega) (by push_cast; omega) (by omega)
        (by push_cast; omega) ?_
      have e1 : ((row : ℤ) + i * 1).toNat = row + i := by omega
      have e2 : ((col : ℤ) + i * 0).toNat = col := by omega
      rw [e1, e2]
      exact hcells i hik
    · refine ⟨(1, 1), by simp [dirs4], ((row : ℤ), (col : ℤ)), ?_⟩
      intro i hik
      refine okCell_intro (by omega) (by push_cast; omega) (by omega)
        (by push_cast; omega) ?_
      have e1 : ((row : ℤ) + i * 1).toNat = row + i := by omega
      have e2 : ((col : ℤ) + i * 1).toNat = col + i := by omega
      rw [e1, e2]
      exact hcells i hik
    · refine ⟨(1, -1), by simp [dirs4], ((row : ℤ), (col : ℤ)), ?_⟩
      intro i hik
      refine okCell_intro (by omega) (by push_cast; omega) (by omega)
        (by push_cast; omega) ?_
      have e1 : ((row : ℤ) + i * 1).toNat = row + i := by omega
      have e2 : ((col : ℤ) + i * -1).toNat = col - i := by omega
      rw [e1, e2]
      exact hcells i hik
  · rintro ⟨d, hd, o, hrun⟩
    have h0 := okCell_elim (by simpa using hrun 0 (by omega))
    have hlast := okCell_elim (hrun (k - 1) (by omega))
    obtain ⟨h0r, h0r2, h0c, h0c2, h0cell⟩ := h0
    unfold hasRunB
    simp only [List.any_eq_true, List.mem_range, Bool.and_eq_true, beq_iff_eq]
    refine ⟨o.1.toNat, by omega, o.2.toNat, by omega, h0cell, ?_⟩
    unfold runAtB
    simp only [Bool.or_eq_true, Bool.and_eq_true, decide_eq_true_eq,
      List.all_eq_true, List.mem_range, beq_iff_eq]
    have hcells : ∀ i : ℕ, i < k → cellN b (o.1 + i * d.1).toNat (o.2 + i * d.2).toNat = p :=
      fun i hik => (okCell_elim (hrun i hik)).2.2.2.2
    rcases dirs4_cases hd with rfl | rfl | rfl | rfl
    · refine Or.inl (Or.inl (Or.inl ⟨?_, ?_⟩))
      · have := hlast.2.2.2.1
        simp only at this
        omega
      · intro i hik
        have := hcells i hik
        have e1 : (o.1 + i * (0:ℤ)).toNat = o.1.toNat := by omega
        have e2 : (o.2 + i * (1:ℤ)).toNat = o.2.toNat + i := by omega
        rw [e1, e2] at this
        exact this
    · refine Or.inl (Or.inl (Or.inr ⟨?_, ?_⟩))
      · have := hlast.2.1
        simp only at this
        omega
      · intro i hik
        have := hcells i hik
        have e1 : (o.1 + i * (1:ℤ)).toNat = o.1.toNat + i := by omega
        have e2 : (o.2 + i * (0:ℤ)).toNat = o.2.toNat := by omega
        rw [e1, e2] at this
        exact this
    · refine Or.inl (Or.inr ⟨⟨?_, ?_⟩, ?_⟩)
      · have := hlast.2.1
        simp only at this
        omega
      · have := hlast.2.2.2.1
        simp only at this
        omega
      · intro i hik
        have := hcells i hik
        have e1 : (o.1 + i * (1:ℤ)).toNat = o.1.toNat + i := by omega
        have e2 : (o.2 + i * (1:ℤ)).toNat = o.2.toNat + i := by omega
        rw [e1, e2] at this
        exact this
    · refine Or.inr ⟨⟨?_, ?_⟩, ?_⟩
      · have := hlast.2.1
        simp only at this
        omega
      · have := hlast.2.2.1
        simp only at this
        omega
      · intro i hik
        have := hcells i hik
        have e1 : (o.1 + i * (1:ℤ)).toNat = o.1.toNat + i := by omega
        have e2 : (o.2 + i * (-1:ℤ)).toNat = o.2.toNat - i := by
          have hik2 : (i : ℤ) ≤ (k : ℤ) - 1 := by omega
          have := hrun i hik
          have hge := (okCell_elim this).2.2.1
          simp only at hge
          omega
        rw [e1, e2] at this
        exact this

/-- The winner value returned by `check_win_condition`:
`'X' if player == 'X' else 'O'`. -/
def winOf (p : Cell) : Outcome := if p = Cell.X then .winX else .winO

/-- Evaluation of `check_win_condition` when the moved cell holds a token:
win if some axis total through the cell reaches `k`, else draw on a full
board, else ongoing. -/
lemma check_win_token (s : State) (r c k : ℕ) (p : Cell)
    (hcell : cellN s.board r c = p) (hp : p = Cell.X ∨ p = Cell.O) :
    check_win_condition s (some (r, c)) k =
      if ∃ d ∈ dirs4, k ≤ axisTotal s.board r c d p then winOf p
      else if is_board_full s.board then .draw
      else .ongoing := by
  unfold check_win_condition
  dsimp only
  rw [hcell]
  have hany : (dirs4.any fun d =>
      decide (k ≤ 1 + count_in_direction s.board r c d.1 d.2 p
        + count_in_direction s.board r c (-d.1) (-d.2) p)) =
      decide (∃ d ∈ dirs4, k ≤ axisTotal s.board r c d p) := by
    by_cases h : ∃ d ∈ dirs4, k ≤ axisTotal s.board r c d p
    · obtain ⟨d, hd, hdk⟩ := h
      rw [decide_eq_true (show ∃ d ∈ dirs4, k ≤ axisTotal s.board r c d p from ⟨d, hd, hdk⟩)]
      rw [List.any_eq_true]
      exact ⟨d, hd, by unfold axisTotal at hdk; exact decide_eq_true (by omega)⟩
    · rw [decide_eq_false h]
      rw [← Bool.not_eq_true, List.any_eq_true]
      rintro ⟨d, hd, hdk⟩
      exact h ⟨d, hd, by unfold axisTotal; simpa using of_decide_eq_true hdk⟩
  rcases hp with rfl | rfl
  · rw [if_neg (by simp), hany]
    by_cases h : ∃ d ∈ dirs4, k ≤ axisTotal s.board r c d Cell.X
    · simp [h, winOf]
    · simp [h, winOf]
  · rw [if_neg (by simp), hany]
    by_cases h : ∃ d ∈ dirs4, k ≤ axisTotal s.board r c d Cell.O
    · simp [h, winOf]
    · simp [h, winOf]

/-- C4: with a token at the last-moved cell, the detector reports that
token's owner as winner exactly when, along one of the four axes through the
cell, there are contiguous same-token stretches of `m` cells backward and
`n` cells forward (the cell itself counting as 1) with `1 + m + n ≥ k`. -/
theorem check_win_axis_iff (s : State) (r c k : ℕ) (hk : 1 ≤ k) (p : Player)
    (hr : r < rowsOf s.board) (hc : c < colsOf s.board)
    (hcell : cellN s.board r c = p.cell) :
    check_win_condition s (some (r, c)) k = winOf p.cell ↔
      ∃ d ∈ dirs4, ∃ m n : ℕ,
        (∀ j : ℕ, 1 ≤ j → j ≤ m →
          okCell s.board p.cell ((r : ℤ) - j * d.1) ((c : ℤ) - j * d.2)) ∧
        (∀ j : ℕ, 1 ≤ j → j ≤ n →
          okCell s.board p.cell ((r : ℤ) + j * d.1) ((c : ℤ) + j * d.2)) ∧
        k ≤ 1 + m + n := by
  have hptok : p.cell = Cell.X ∨ p.cell = Cell.O := by cases p <;> simp [Player.cell]
  have hcen : okCell s.board p.cell (r : ℤ) (c : ℤ) := by
    refine okCell_intro (by omega) (by push_cast; omega) (by omega) (by push_cast; omega) ?_
    simpa using hcell
  rw [check_win_token s r c k p.cell hcell hptok]
  constructor
  · intro h
    have hex : ∃ d ∈ dirs4, k ≤ axisTotal s.board r c d p.cell := by
      by_contra hn
      rw [if_neg hn] at h
      by_cases hf : is_board_full s.board
      · rw [if_pos hf] at h
        cases hptok with
        | inl hx => rw [hx] at h; exact absurd h (by unfold winOf; simp)
        | inr ho => rw [ho] at h; exact absurd h (by unfold winOf; simp)
      · rw [if_neg hf] at h
        cases hptok with
        | inl hx => rw [hx] at h; exact absurd h (by unfold winOf; simp)
        | inr ho => rw [ho] at h; exact absurd h (by unfold winOf; simp)
    obtain ⟨d, hd, hdk⟩ := hex
    refine ⟨d, hd, count_in_direction s.board r c (-d.1) (-d.2) p.cell,
      count_in_direction s.board r c d.1 d.2 p.cell, ?_, ?_, ?_⟩
    · intro j hj1 hjm
      have h1 := cid_ok s.board p.cell (-d.1) (-d.2) r c j hj1 hjm
      have e1 : (r : ℤ) + j * -d.1 = (r : ℤ) - j * d.1 := by ring
      have e2 : (c : ℤ) + j * -d.2 = (c : ℤ) - j * d.2 := by ring
      rw [e1, e2] at h1
      exact h1
    · intro j hj1 hjn
      exact cid_ok s.board p.cell d.1 d.2 r c j hj1 hjn
    · unfold axisTotal at hdk
      omega
  · rintro ⟨d, hd, m, n, hback, hfwd, hmn⟩
    have hmbound : m ≤ rowsOf s.board + colsOf s.board := by
      rcases Nat.eq_zero_or_pos m with rfl | hm
      · omega
      · have hokm := hback m (by omega) (le_refl m)
        have e1 : (r : ℤ) - m * d.1 = (r : ℤ) + m * -d.1 := by ring
        have e2 : (c : ℤ) - m * d.2 = (c : ℤ) + m * -d.2 := by ring
        rw [e1, e2] at hokm
        have := stretch_lt s.board p.cell (-d.1) (-d.2) (dirs4_delta hd).2
          (r : ℤ) (c : ℤ) m hcen hokm
        omega
    have hnbound : n ≤ rowsOf s.board + colsOf s.board := by
      rcases Nat.eq_zero_or_pos n with rfl | hn
      · omega
      · have hokn := hfwd n (by omega) (le_refl n)
        have := stretch_lt s.board p.cell d.1 d.2 (dirs4_delta hd).1
          (r : ℤ) (c : ℤ) n hcen hokn
        omega
    have hB : m ≤ count_in_direction s.board r c (-d.1) (-d.2) p.cell := by
      refine cid_ge s.board p.cell (-d.1) (-d.2) r c m hmbound ?_
      intro j hj1 hjm
      have h1 := hback j hj1 hjm
      have e1 : (r : ℤ) - j * d.1 = (r : ℤ) + j * -d.1 := by ring
      have e2 : (c : ℤ) - j * d.2 = (c : ℤ) + j * -d.2 := by ring
      rw [e1, e2] at h1
      exact h1
    have hF : n ≤ count_in_direction s.board r c d.1 d.2 p.cell :=
      cid_ge s.board p.cell d.1 d.2 r c n hnbound hfwd
    rw [if_pos ⟨d, hd, by unfold axisTotal; omega⟩]

/-- Witness for `check_win_axis_iff`: the detector reports X's win on
`XXX` in the top row of a 3×3 board, via the horizontal axis through
(0, 1) with one cell on each side. -/
theorem check_win_axis_iff_witness :
    check_win_condition ⟨[[Cell.X, Cell.X, Cell.X],
      [Cell.empty, Cell.O, Cell.O],
      [Cell.empty, Cell.empty, Cell.empty]], Player.O⟩ (some (0, 1)) 3 =
      winOf Player.X.cell := by
  refine (check_win_axis_iff _ 0 1 3 (by decide) Player.X (by decide) (by decide)
    (by decide)).mpr ⟨(0, 1), by simp [dirs4], 1, 1, ?_, ?_, by decide⟩
  · intro j hj1 hjm
    have hj : j = 1 := by omega
    subst hj
    decide
  · intro j hj1 hjm
    have hj : j = 1 := by omega
    subst hj
    decide

/-! ## C5: the draw condition -/

lemma is_board_full_iff (b : Board) :
    is_board_full b = true ↔
      ∀ row ∈ b, ∀ cell ∈ row, cell ≠ Cell.empty ∧ cell ≠ Cell.forb := by
  unfold is_board_full
  simp [List.all_eq_true]

/-- C5 counterexample: a 2×2 board with one forbidden square, no Empty cell
and no 3-run anywhere; the claim demands Draw, but `check_win_condition`
(queried at the token cell (0,0)) reports Ongoing, because `_is_board_full`
treats the forbidden square like an unfilled cell. -/
theorem check_win_draw_claim_counterexample :
    (∀ row ∈ ([[Cell.X, Cell.forb], [Cell.O, Cell.X]] : Board),
      ∀ cell ∈ row, cell ≠ Cell.empty) ∧
    hasRunB [[Cell.X, Cell.forb], [Cell.O, Cell.X]] Cell.X 3 = false ∧
    hasRunB [[Cell.X, Cell.forb], [Cell.O, Cell.X]] Cell.O 3 = false ∧
    check_win_condition ⟨[[Cell.X, Cell.forb], [Cell.O, Cell.X]], Player.O⟩
      (some (0, 0)) 3 = .ongoing := by
  decide

/-- C5 (amended): when the last-moved cell holds a player's token, the
detector reports Draw iff the board has zero Empty *and zero forbidden*
cells and no axis *through the moved cell* totals at least `k`; and it
reports Ongoing iff some Empty or forbidden cell remains and no such axis
total reaches `k`. -/
theorem check_win_draw_characterization (s : State) (r c k : ℕ) (p : Player)
    (hcell : cellN s.board r c = p.cell) :
    (check_win_condition s (some (r, c)) k = .draw ↔
      ((∀ row ∈ s.board, ∀ cell ∈ row, cell ≠ Cell.empty ∧ cell ≠ Cell.forb) ∧
        ¬∃ d ∈ dirs4, k ≤ axisTotal s.board r c d p.cell)) ∧
    (check_win_condition s (some (r, c)) k = .ongoing ↔
      (¬(∀ row ∈ s.board, ∀ cell ∈ row, cell ≠ Cell.empty ∧ cell ≠ Cell.forb) ∧
        ¬∃ d ∈ dirs4, k ≤ axisTotal s.board r c d p.cell)) := by
  have hptok : p.cell = Cell.X ∨ p.cell = Cell.O := by cases p <;> simp [Player.cell]
  rw [check_win_token s r c k p.cell hcell hptok]
  by_cases hex : ∃ d ∈ dirs4, k ≤ axisTotal s.board r c d p.cell
  · rw [if_pos hex]
    constructor
    · constructor
      · intro h
        exact absurd h (by unfold winOf; rcases hptok with h1 | h1 <;> rw [h1] <;> simp)
      · rintro ⟨-, hn⟩
        exact absurd hex hn
    · constructor
      · intro h
        exact absurd h (by unfold winOf; rcases hptok with h1 | h1 <;> rw [h1] <;> simp)
      · rintro ⟨-, hn⟩
        exact absurd hex hn
  · rw [if_neg hex]
    by_cases hfull : is_board_full s.board = true
    · rw [if_pos hfull]
      refine ⟨⟨fun _ => ⟨(is_board_full_iff s.board).mp hfull, hex⟩, fun _ => rfl⟩,
        ⟨fun h => absurd h (by simp), ?_⟩⟩
      rintro ⟨hne, -⟩
      exact absurd ((is_board_full_iff s.board).mp hfull) hne
    · rw [if_neg hfull]
      refine ⟨⟨fun h => absurd h (by simp), ?_⟩,
        ⟨fun _ => ⟨?_, hex⟩, fun _ => rfl⟩⟩
      · rintro ⟨hfu, -⟩
        exact absurd ((is_board_full_iff s.board).mpr hfu) hfull
      · intro hall
        exact absurd ((is_board_full_iff s.board).mpr hall) hfull

/-- Witness for `check_win_draw_characterization`: a fully token-filled 2×2
board with no 3-run, queried at (0,0), is reported Draw. -/
theorem check_win_draw_characterization_witness :
    check_win_condition ⟨[[Cell.X, Cell.O], [Cell.O, Cell.X]], Player.O⟩
      (some (0, 0)) 3 = .draw :=
  (check_win_draw_characterization ⟨[[Cell.X, Cell.O], [Cell.O, Cell.X]], Player.O⟩
    0 0 3 Player.X (by decide)).1.mpr ⟨by decide, by decide⟩

/-! ## C3: agreement of the two win-detector variants on reachable states -/

lemma inBoundsB_setCell (b : Board) (r c : ℕ) (v : Cell) (i j : ℤ) :
    inBoundsB (setCell b r c v) i j = inBoundsB b i j := by
  unfold inBoundsB
  rw [rowsOf_setCell, colsOf_setCell]

lemma okCell_setCell_ne {b : Board} {r c : ℕ} {v q : Cell} {i j : ℤ}
    (hne : (i.toNat, j.toNat) ≠ (r, c)) :
    okCell (setCell b r c v) q i j ↔ okCell b q i j := by
  unfold okCell cellZ
  rw [inBoundsB_setCell, cellN_setCell_ne b v hne]

lemma check_win_none (s : State) (k : ℕ) :
    check_win_condition s none k = check_full_board s.board k := rfl

lemma check_full_ongoing {b : Board} {k : ℕ}
    (h : check_full_board b k = .ongoing) :
    hasRunB b Cell.X k = false ∧ hasRunB b Cell.O k = false ∧
      is_board_full b = false := by
  unfold check_full_board at h
  by_cases hX : hasRunB b Cell.X k = true
  · rw [if_pos hX] at h; exact absurd h (by simp)
  · rw [if_neg hX] at h
    by_cases hO : hasRunB b Cell.O k = true
    · rw [if_pos hO] at h; exact absurd h (by simp)
    · rw [if_neg hO] at h
      by_cases hF : is_board_full b = true
      · rw [if_pos hF] at h; exact absurd h (by simp)
      · rw [if_neg hF] at h
        exact ⟨by simpa using hX, by simpa using hO, by simpa using hF⟩

/-- Placing a token on an empty cell can only create runs through that
cell: any completed run on the new board either already existed on the old
board, or belongs to the placed value and makes an axis total through the
move reach `k`. -/
lemma hasRunB_setCell {b : Board} {r c : ℕ} {v q : Cell} {k : ℕ} (hk : 1 ≤ k)
    (hr : r < rowsOf b) (hWF : WF b)
    (h : hasRunB (setCell b r c v) q k = true) :
    hasRunB b q k = true ∨
      (q = v ∧ ∃ d ∈ dirs4, k ≤ axisTotal (setCell b r c v) r c d q) := by
  obtain ⟨d, hd, o, hrun⟩ := (hasRunB_iff_existsRun (setCell b r c v) q k hk).mp h
  by_cases hthru : ∃ t : ℕ, t < k ∧ o.1 + t * d.1 = (r : ℤ) ∧ o.2 + t * d.2 = (c : ℤ)
  · obtain ⟨t, ht, he1, he2⟩ := hthru
    have hcell := (okCell_elim (hrun t ht)).2.2.2.2
    rw [he1, he2] at hcell
    have e1 : ((r : ℤ)).toNat = r := by omega
    have e2 : ((c : ℤ)).toNat = c := by omega
    rw [e1, e2] at hcell
    have hc' : c < (b.getD r []).length := by
      rw [row_len_of_WF hWF hr]
      have := (okCell_elim (hrun t ht)).2.2.2.1
      rw [he2, colsOf_setCell] at this
      omega
    have hqv : q = v := by
      rw [cellN_setCell_self b v hr hc'] at hcell
      exact hcell.symm
    have haxis := run_to_axis (setCell b r c v) q k o d hd t ht hrun
    rw [he1, he2] at haxis
    exact Or.inr ⟨hqv, d, hd, haxis⟩
  · left
    refine (hasRunB_iff_existsRun b q k hk).mpr ⟨d, hd, o, ?_⟩
    intro i hik
    have hok := hrun i hik
    have hel := okCell_elim hok
    have hne : ((o.1 + i * d.1).toNat, (o.2 + i * d.2).toNat) ≠ (r, c) := by
      intro heq
      refine hthru ⟨i, hik, ?_, ?_⟩
      · have h1 : (o.1 + i * d.1).toNat = r := by
          have := congrArg Prod.fst heq
          simpa using this
        omega
      · have h2 : (o.2 + i * d.2).toNat = c := by
          have := congrArg Prod.snd heq
          simpa using this
        omega
    exact (okCell_setCell_ne hne).mp hok

/-- After a legal move on a board with no completed run, the last-move
detector and the full-board scan agree on the resulting state. -/
lemma step_agreement (s : State) (r c : ℕ) (k : ℕ) (hk : 1 ≤ k)
    (hWF : WF s.board) (hr : r < rowsOf s.board) (hc : c < colsOf s.board)
    (hemp : cellN s.board r c = Cell.empty)
    (hnoX : hasRunB s.board Cell.X k = false)
    (hnoO : hasRunB s.board Cell.O k = false) :
    check_win_condition (applyU s (r, c)) (some (r, c)) k =
      check_full_board (applyU s (r, c)).board k := by
  set p := s.whose_move with hp
  have hptok : p.cell = Cell.X ∨ p.cell = Cell.O := by cases p <;> simp [Player.cell]
  have hc' : c < (s.board.getD r []).length := by
    rw [row_len_of_WF hWF hr]; exact hc
  have hb' : (applyU s (r, c)).board = setCell s.board r c p.cell := rfl
  have hcell : cellN (applyU s (r, c)).board r c = p.cell :=
    cellN_setCell_self s.board p.cell hr hc'
  rw [check_win_token (applyU s (r, c)) r c k p.cell hcell hptok]
  have hkeep : ∀ q : Cell, hasRunB s.board q k = false → q ≠ p.cell →
      hasRunB (applyU s (r, c)).board q k = false := by
    intro q hqfalse hqne
    by_contra hcon
    rw [Bool.not_eq_false, hb'] at hcon
    rcases hasRunB_setCell hk hr hWF hcon with h2 | ⟨heq, -⟩
    · rw [h2] at hqfalse
      exact absurd hqfalse (by simp)
    · exact hqne heq
  by_cases hex : ∃ d ∈ dirs4, k ≤ axisTotal (applyU s (r, c)).board r c d p.cell
  · rw [if_pos hex]
    obtain ⟨d, hd, hax⟩ := hex
    have hcen : okCell (applyU s (r, c)).board p.cell (r : ℤ) (c : ℤ) := by
      refine okCell_intro (by omega) ?_ (by omega) ?_ ?_
      · rw [hb', rowsOf_setCell]; push_cast; omega
      · rw [hb', colsOf_setCell]; push_cast; omega
      · have e1 : ((r : ℤ)).toNat = r := by omega
        have e2 : ((c : ℤ)).toNat = c := by omega
        rw [e1, e2]
        exact hcell
    obtain ⟨t, ht, hrun, -, -⟩ :=
      axis_to_run (applyU s (r, c)).board p.cell k hk (r : ℤ) (c : ℤ) d hcen hax
    have hrunp : hasRunB (applyU s (r, c)).board p.cell k = true :=
      (hasRunB_iff_existsRun (applyU s (r, c)).board p.cell k hk).mpr
        ⟨d, hd, _, hrun⟩
    unfold check_full_board
    cases hpc : p with
    | X =>
      have hOf : hasRunB (applyU s (r, c)).board Cell.O k = false :=
        hkeep Cell.O hnoO (by rw [hpc]; simp [Player.cell])
      rw [hpc] at hrunp
      rw [if_pos (by simpa [Player.cell] using hrunp)]
      simp [Player.cell, winOf]
    | O =>
      have hXf : hasRunB (applyU s (r, c)).board Cell.X k = false :=
        hkeep Cell.X hnoX (by rw [hpc]; simp [Player.cell])
      rw [hpc] at hrunp
      rw [if_neg (by simp [hXf]), if_pos (by simpa [Player.cell] using hrunp)]
      simp [Player.cell, winOf]
  · rw [if_neg hex]
    have hXf : hasRunB (applyU s (r, c)).board Cell.X k = false := by
      by_cases hqx : Cell.X = p.cell
      · by_contra hcon
        rw [Bool.not_eq_false, hb'] at hcon
        rcases hasRunB_setCell hk hr hWF hcon with h2 | ⟨-, hax⟩
        · rw [h2] at hnoX
          exact absurd hnoX (by simp)
        · exact hex (by rw [hqx] at hax; exact (hb' ▸ hax))
      · exact hkeep Cell.X hnoX hqx
    have hOf : hasRunB (applyU s (r, c)).board Cell.O k = false := by
      by_cases hqo : Cell.O = p.cell
      · by_contra hcon
        rw [Bool.not_eq_false, hb'] at hcon
        rcases hasRunB_setCell hk hr hWF hcon with h2 | ⟨-, hax⟩
        · rw [h2] at hnoO
          exact absurd hnoO (by simp)
        · exact hex (by rw [hqo] at hax; exact (hb' ▸ hax))
      · exact hkeep Cell.O hnoO hqo
    unfold check_full_board
    rw [hXf, hOf]
    simp

/-- Game-reachable states with their last move: play starts from a
well-formed board containing only Empty and forbidden cells with X to move
(strict alternation from an empty board, as the orchestrator does), each
move goes to an in-bounds Empty cell via the success path of `apply_move`,
and — as in the orchestrator's loop — play continues past a position only
while the win detector (queried with that position's last move) reports
Ongoing. -/
inductive Reaches (k : ℕ) : State → Option (ℕ × ℕ) → Prop
  | start (b : Board) (hWF : WF b)
      (hnotok : ∀ row ∈ b, ∀ cell ∈ row, cell = Cell.empty ∨ cell = Cell.forb) :
      Reaches k ⟨b, Player.X⟩ none
  | step (s : State) (mv : Option (ℕ × ℕ)) (r c : ℕ)
      (hre : Reaches k s mv)
      (hcont : check_win_condition s mv k = .ongoing)
      (hr : r < rowsOf s.board) (hc : c < colsOf s.board)
      (hemp : cellN s.board r c = Cell.empty) :
      Reaches k (applyU s (r, c)) (some (r, c))

lemma Reaches_WF {k : ℕ} {s : State} {mv : Option (ℕ × ℕ)}
    (h : Reaches k s mv) : WF s.board := by
  induction h with
  | start b hWF _ => exact hWF
  | step s mv r c hre hcont hr hc hemp ih => exact WF_applyU (r, c) ih

/-- C3: on every reachable state, the last-move variant of the win detector
(given the move just played) and the full-scan variant (given no move)
return the same classification. -/
theorem win_detector_variants_agree (k : ℕ) (hk : 1 ≤ k) (s : State)
    (mv : Option (ℕ × ℕ)) (h : Reaches k s mv) :
    check_win_condition s mv k = check_win_condition s none k := by
  induction h with
  | start b hWF hnotok => rfl
  | step s mv r c hre hcont hr hc hemp ih =>
    rw [check_win_none]
    have hfull : check_full_board s.board k = .ongoing := by
      rw [← check_win_none, ← ih]
      exact hcont
    obtain ⟨hnoX, hnoO, -⟩ := check_full_ongoing hfull
    exact step_agreement s r c k hk (Reaches_WF hre) hr hc hemp hnoX hnoO

/-- Witness for `win_detector_variants_agree`: after X's first move on a
1×2 board, both variants are queried on the resulting state. -/
theorem win_detector_variants_agree_witness :
    check_win_condition (applyU ⟨[[Cell.empty, Cell.empty]], Player.X⟩ (0, 0))
        (some (0, 0)) 3 =
      check_win_condition (applyU ⟨[[Cell.empty, Cell.empty]], Player.X⟩ (0, 0))
        none 3 :=
  win_detector_variants_agree 3 (by decide) _ _
    (Reaches.step ⟨[[Cell.empty, Cell.empty]], Player.X⟩ none 0 0
      (Reaches.start [[Cell.empty, Cell.empty]] (by decide) (by decide))
      (by decide) (by decide) (by decide) (by decide))

/-! ## C1 / C2: the search engine -/

lemma toVal_lt_top (z : ℤ) : toVal z < ⊤ := by
  unfold toVal
  exact WithBot.coe_lt_coe.mpr (WithTop.coe_lt_top z)

lemma bot_lt_toVal (z : ℤ) : (⊥ : Val) < toVal z := WithBot.bot_lt_coe _

lemma max_toVal (z w : ℤ) : max (toVal z) (toVal w) = toVal (max z w) := by
  unfold toVal
  rw [← WithBot.coe_max, ← WithTop.coe_max]

lemma min_toVal (z w : ℤ) : min (toVal z) (toVal w) = toVal (min z w) := by
  unfold toVal
  rw [← WithBot.coe_min, ← WithTop.coe_min]

/-- With `pruning=False` the `alpha`/`beta` arguments of the maximizing loop
are dead: they are passed along unchanged and only read under `if pruning`. -/
lemma searchMax_false_foldl (f : State → Val → Val → Val) :
    ∀ (l : List Child) (best a b : Val),
      searchMax f false l best a b =
        l.foldl (fun acc ch => max acc (f ch.2.1 a b)) best := by
  intro l
  induction l with
  | nil => intro best a b; rfl
  | cons ch rest ih =>
    intro best a b
    unfold searchMax
    simp only [Bool.false_eq_true, if_false]
    exact ih _ a b

lemma searchMin_false_foldl (f : State → Val → Val → Val) :
    ∀ (l : List Child) (best a b : Val),
      searchMin f false l best a b =
        l.foldl (fun acc ch => min acc (f ch.2.1 a b)) best := by
  intro l
  induction l with
  | nil => intro best a b; rfl
  | cons ch rest ih =>
    intro best a b
    unfold searchMin
    simp only [Bool.false_eq_true, if_false]
    exact ih _ a b

/-- With `pruning=False`, `minimax` ignores its `alpha`/`beta` arguments. -/
lemma minimax_false_ab (k : ℕ) :
    ∀ (d : ℕ) (s : State) (a b a' b' : Val),
      minimax k false d s a b = minimax k false d s a' b' := by
  intro d
  induction d with
  | zero => intro s a b a' b'; rfl
  | succ d ih =>
    intro s a b a' b'
    unfold minimax
    by_cases ht : is_terminal k s = true
    · rw [if_pos ht, if_pos ht]
    · rw [if_neg ht, if_neg ht]
      cases s.whose_move with
      | X =>
        rw [searchMax_false_foldl, searchMax_false_foldl]
        have : (fun (acc : Val) (ch : Child) => max acc (minimax k false d ch.2.1 a b)) =
            fun acc ch => max acc (minimax k false d ch.2.1 a' b') := by
          funext acc ch
          rw [ih ch.2.1 a b a' b']
        rw [this]
      | O =>
        rw [searchMin_false_foldl, searchMin_false_foldl]
        have : (fun (acc : Val) (ch : Child) => min acc (minimax k false d ch.2.1 a b)) =
            fun acc ch => min acc (minimax k false d ch.2.1 a' b') := by
          funext acc ch
          rw [ih ch.2.1 a b a' b']
        rw [this]

/-- The canonical plain-minimax value (no pruning). -/
def plainVal (k d : ℕ) (s : State) : Val := minimax k false d s ⊥ ⊤

/-- The Knuth–Moore bound relation between a value returned by the pruned
search in window `(a, b)` and the plain minimax value: a fail-low result is
an upper bound, a fail-high result a lower bound, and an in-window result is
exact. -/
abbrev KM (g v a b : Val) : Prop :=
  (g ≤ a → v ≤ g) ∧ (b ≤ g → g ≤ v) ∧ (a < g → g < b → g = v)

lemma searchMax_ge_best (f : State → Val → Val → Val) (pruning : Bool) :
    ∀ (l : List Child) (best a b : Val), best ≤ searchMax f pruning l best a b := by
  intro l
  induction l with
  | nil => intro best a b; exact le_refl best
  | cons ch rest ih =>
    intro best a b
    unfold searchMax
    cases pruning with
    | false =>
      rw [if_neg (by simp)]
      exact le_trans (le_max_left best _) (ih _ _ _)
    | true =>
      rw [if_pos rfl]
      dsimp only
      by_cases hcut : b ≤ max a (max best (f ch.2.1 a b))
      · rw [if_pos hcut]
        exact le_max_left best _
      · rw [if_neg hcut]
        exact le_trans (le_max_left best _) (ih _ _ _)

lemma searchMin_le_best (f : State → Val → Val → Val) (pruning : Bool) :
    ∀ (l : List Child) (best a b : Val), searchMin f pruning l best a b ≤ best := by
  intro l
  induction l with
  | nil => intro best a b; exact le_refl best
  | cons ch rest ih =>
    intro best a b
    unfold searchMin
    cases pruning with
    | false =>
      rw [if_neg (by simp)]
      exact le_trans (ih _ _ _) (min_le_left best _)
    | true =>
      rw [if_pos rfl]
      dsimp only
      by_cases hcut : min b (min best (f ch.2.1 a b)) ≤ a
      · rw [if_pos hcut]
        exact min_le_left best _
      · rw [if_neg hcut]
        exact le_trans (ih _ _ _) (min_le_left best _)

lemma foldl_max_init (g : Child → Val) :
    ∀ (l : List Child) (x y : Val),
      l.foldl (fun acc ch => max acc (g ch)) (max x y) =
        max x (l.foldl (fun acc ch => max acc (g ch)) y) := by
  intro l
  induction l with
  | nil => intro x y; rfl
  | cons ch rest ih =>
    intro x y
    simp only [List.foldl_cons]
    rw [max_assoc, ih]

lemma foldl_min_init (g : Child → Val) :
    ∀ (l : List Child) (x y : Val),
      l.foldl (fun acc ch => min acc (g ch)) (min x y) =
        min x (l.foldl (fun acc ch => min acc (g ch)) y) := by
  intro l
  induction l with
  | nil => intro x y; rfl
  | cons ch rest ih =>
    intro x y
    simp only [List.foldl_cons]
    rw [min_assoc, ih]

lemma foldl_max_ge_init (g : Child → Val) (l : List Child) (x : Val) :
    x ≤ l.foldl (fun acc ch => max acc (g ch)) x := by
  have h := foldl_max_init g l x ⊥
  rw [show (max x ⊥ : Val) = x from max_eq_left bot_le] at h
  rw [h]
  exact le_max_left _ _

lemma foldl_min_le_init (g : Child → Val) (l : List Child) (x : Val) :
    l.foldl (fun acc ch => min acc (g ch)) x ≤ x := by
  have h := foldl_min_init g l x ⊤
  rw [show (min x ⊤ : Val) = x from min_eq_left le_top] at h
  rw [h]
  exact min_le_left _ _

/-- Knuth–Moore soundness of the pruned maximizing loop: relative to any
window `(a, b)` with `a < b` and an accumulator `best ≤ a`, the loop's
result is bounded against the plain fold of the children's exact values. -/
lemma searchMax_KM (f : State → Val → Val → Val) (vp : State → Val) :
    ∀ l : List Child,
      (∀ ch ∈ l, ∀ a b : Val, a < b → KM (f ch.2.1 a b) (vp ch.2.1) a b) →
      ∀ best a b : Val, best ≤ a → a < b →
        KM (searchMax f true l best a b)
          (l.foldl (fun acc ch => max acc (vp ch.2.1)) best) a b := by
  intro l
  induction l with
  | nil =>
    intro _ best a b hba hab
    exact ⟨fun _ => le_refl _, fun _ => le_refl _, fun _ _ => rfl⟩
  | cons ch rest ih =>
    intro hl best a b hba hab
    have KM1 := hl ch (List.mem_cons_self ch rest) a b hab
    simp only [List.foldl_cons]
    unfold searchMax
    rw [if_pos rfl]
    dsimp only
    set g1 := f ch.2.1 a b with hg1def
    set best' := max best g1 with hbest'
    by_cases hcut : b ≤ max a best'
    · rw [if_pos hcut]
      have hg1b : b ≤ g1 := by
        rcases max_cases a best' with ⟨he, -⟩ | ⟨he, -⟩
        · rw [he] at hcut
          exact absurd hcut (not_le.mpr hab)
        · rw [he] at hcut
          rcases max_cases best g1 with ⟨he2, -⟩ | ⟨he2, -⟩
          · rw [hbest', he2] at hcut
            exact absurd (le_trans hcut hba) (not_le.mpr hab)
          · rw [hbest', he2] at hcut
            exact hcut
      refine ⟨?_, ?_, ?_⟩
      · intro hga
        exact absurd (le_trans hg1b (le_trans (le_max_right best g1) hga))
          (not_le.mpr hab)
      · intro _
        have hg1v : g1 ≤ vp ch.2.1 := KM1.2.1 hg1b
        have h1 : best' ≤ max best (vp ch.2.1) := max_le_max (le_refl best) hg1v
        exact le_trans h1 (foldl_max_ge_init _ rest _)
      · intro _ hgb
        exact absurd hgb (not_lt.mpr (le_trans hg1b (le_max_right best g1)))
    · rw [if_neg hcut]
      have hab' : max a best' < b := not_le.mp hcut
      have hba' : best' ≤ max a best' := le_max_right a best'
      have hl' : ∀ ch' ∈ rest, ∀ a b : Val, a < b → KM (f ch'.2.1 a b) (vp ch'.2.1) a b :=
        fun ch' h => hl ch' (List.mem_cons_of_mem _ h)
      have IH := ih hl' best' (max a best') b hba' hab'
      have hrep : ∀ x : Val, rest.foldl (fun acc ch => max acc (vp ch.2.1)) x =
          max x (rest.foldl (fun acc ch => max acc (vp ch.2.1)) ⊥) := by
        intro x
        rw [← foldl_max_init]
        rw [show (max x ⊥ : Val) = x from max_eq_left bot_le]
      set S := rest.foldl (fun acc ch => max acc (vp ch.2.1)) ⊥ with hSdef
      by_cases hga : g1 ≤ a
      · have hvpg : vp ch.2.1 ≤ g1 := KM1.1 hga
        have hba2 : best' ≤ a := max_le hba hga
        have halpha : max a best' = a := max_eq_left hba2
        rw [halpha] at IH ⊢
        refine ⟨?_, ?_, ?_⟩
        · intro hgaa
          have ht' := IH.1 hgaa
          rw [hrep best'] at ht'
          rw [hrep (max best (vp ch.2.1))]
          have hb1 : best' ≤ searchMax f true rest best' a b := le_trans (le_max_left _ _) ht'
          have hS1 : S ≤ searchMax f true rest best' a b := le_trans (le_max_right _ _) ht'
          refine max_le (le_trans (max_le_max (le_refl best) hvpg) hb1) hS1
        · intro hbg
          have ht' := IH.2.1 hbg
          rw [hrep best'] at ht'
          rw [hrep (max best (vp ch.2.1))]
          rcases max_cases best' S with ⟨he, -⟩ | ⟨he, -⟩
          · rw [he] at ht'
            exact absurd (le_trans hbg (le_trans ht' hba2)) (not_le.mpr hab)
          · rw [he] at ht'
            exact le_trans ht' (le_max_right _ _)
        · intro hag hgb
          have ht' := IH.2.2 hag hgb
          rw [hrep best'] at ht'
          rw [hrep (max best (vp ch.2.1))]
          have hbg' : best' < searchMax f true rest best' a b :=
            lt_of_le_of_lt hba2 hag
          have hSg : S = searchMax f true rest best' a b := by
            rcases max_cases best' S with ⟨he, hle⟩ | ⟨he, -⟩
            · rw [he] at ht'
              exact absurd ht' (ne_of_gt hbg')
            · rw [he] at ht'
              exact ht'.symm
          have hmv : max best (vp ch.2.1) ≤ best' := max_le (le_max_left best g1)
            (le_trans hvpg (le_max_right best g1))
          rw [max_eq_right (le_trans hmv (le_of_lt (lt_of_lt_of_le hbg' (le_of_eq hSg.symm))))]
          exact hSg.symm
      · push_neg at hga
        have hg1b2 : g1 < b := lt_of_le_of_lt (le_trans (le_max_right best g1) hba') hab'
        have hg1v : g1 = vp ch.2.1 := KM1.2.2 hga hg1b2
        have halpha : max a best' = best' :=
          max_eq_right (le_trans (le_of_lt hga) (le_max_right best g1))
        have hbt : best' = max best (vp ch.2.1) := by rw [hbest', hg1v]
        rw [halpha] at IH ⊢
        rw [← hbt]
        refine ⟨?_, ?_, ?_⟩
        · intro hgaa
          exact IH.1 (le_trans hgaa (le_trans (le_of_lt hga) (le_max_right best g1)))
        · intro hbg
          exact IH.2.1 hbg
        · intro hag hgb
          rcases lt_or_le best' (searchMax f true rest best' best' b) with hlt | hle
          · exact IH.2.2 hlt hgb
          · have hge := searchMax_ge_best f true rest best' best' b
            have heq : searchMax f true rest best' best' b = best' := le_antisymm hle hge
            have ht := IH.1 (le_of_eq heq)
            rw [heq] at ht ⊢
            exact le_antisymm (foldl_max_ge_init (fun ch => vp ch.2.1) rest best') ht

/-- Knuth–Moore soundness of the pruned minimizing loop (dual of
`searchMax_KM`). -/
lemma searchMin_KM (f : State → Val → Val → Val) (vp : State → Val) :
    ∀ l : List Child,
      (∀ ch ∈ l, ∀ a b : Val, a < b → KM (f ch.2.1 a b) (vp ch.2.1) a b) →
      ∀ best a b : Val, b ≤ best → a < b →
        KM (searchMin f true l best a b)
          (l.foldl (fun acc ch => min acc (vp ch.2.1)) best) a b := by
  intro l
  induction l with
  | nil =>
    intro _ best a b hbb hab
    exact ⟨fun _ => le_refl _, fun _ => le_refl _, fun _ _ => rfl⟩
  | cons ch rest ih =>
    intro hl best a b hbb hab
    have KM1 := hl ch (List.mem_cons_self ch rest) a b hab
    simp only [List.foldl_cons]
    unfold searchMin
    rw [if_pos rfl]
    dsimp only
    set g1 := f ch.2.1 a b with hg1def
    set best' := min best g1 with hbest'
    by_cases hcut : min b best' ≤ a
    · rw [if_pos hcut]
      have hba' : best' ≤ a := by
        rcases min_cases b best' with ⟨he, -⟩ | ⟨he, -⟩
        · rw [he] at hcut
          exact absurd hcut (not_le.mpr hab)
        · rw [he] at hcut
          exact hcut
      have hg1a : g1 ≤ a := by
        rcases min_cases best g1 with ⟨he2, -⟩ | ⟨he2, -⟩
        · rw [hbest', he2] at hba'
          exact absurd (le_trans hbb hba') (not_le.mpr hab)
        · rw [hbest', he2] at hba'
          exact hba'
      refine ⟨?_, ?_, ?_⟩
      · intro _
        have hvg : vp ch.2.1 ≤ g1 := KM1.1 hg1a
        have h1 : min best (vp ch.2.1) ≤ best' := min_le_min (le_refl best) hvg
        exact le_trans (foldl_min_le_init _ rest _) h1
      · intro hbg
        exact absurd (le_trans hbg hba') (not_le.mpr hab)
      · intro hag _
        exact absurd hag (not_lt.mpr hba')
    · rw [if_neg hcut]
      have hab' : a < min b best' := not_le.mp hcut
      have hbb' : min b best' ≤ best' := min_le_right b best'
      have hl' : ∀ ch' ∈ rest, ∀ a b : Val, a < b → KM (f ch'.2.1 a b) (vp ch'.2.1) a b :=
        fun ch' h => hl ch' (List.mem_cons_of_mem _ h)
      have IH := ih hl' best' a (min b best') hbb' hab'
      have hrep : ∀ x : Val, rest.foldl (fun acc ch => min acc (vp ch.2.1)) x =
          min x (rest.foldl (fun acc ch => min acc (vp ch.2.1)) ⊤) := by
        intro x
        rw [← foldl_min_init]
        rw [show (min x ⊤ : Val) = x from min_eq_left le_top]
      set S := rest.foldl (fun acc ch => min acc (vp ch.2.1)) ⊤ with hSdef
      by_cases hgb : b ≤ g1
      · have hgv : g1 ≤ vp ch.2.1 := KM1.2.1 hgb
        have hbb2 : b ≤ best' := le_min hbb hgb
        have hbeta : min b best' = b := min_eq_left hbb2
        rw [hbeta] at IH ⊢
        refine ⟨?_, ?_, ?_⟩
        · intro hgaa
          have ht' := IH.1 hgaa
          rw [hrep best'] at ht'
          rw [hrep (min best (vp ch.2.1))]
          rcases min_cases best' S with ⟨he, -⟩ | ⟨he, -⟩
          · rw [he] at ht'
            exact absurd (le_trans hbb2 (le_trans ht' hgaa)) (not_le.mpr hab)
          · rw [he] at ht'
            exact le_trans (min_le_right _ _) ht'
        · intro hbg2
          have ht' := IH.2.1 hbg2
          rw [hrep best'] at ht'
          rw [hrep (min best (vp ch.2.1))]
          have hb1 : searchMin f true rest best' a b ≤ best' :=
            le_trans ht' (min_le_left _ _)
          have hS1 : searchMin f true rest best' a b ≤ S :=
            le_trans ht' (min_le_right _ _)
          refine le_min (le_trans hb1 (min_le_min (le_refl best) hgv)) hS1
        · intro hag hgb2
          have ht' := IH.2.2 hag hgb2
          rw [hrep best'] at ht'
          rw [hrep (min best (vp ch.2.1))]
          have hgb' : searchMin f true rest best' a b < best' :=
            lt_of_lt_of_le hgb2 hbb2
          have hSg : S = searchMin f true rest best' a b := by
            rcases min_cases best' S with ⟨he, hle⟩ | ⟨he, -⟩
            · rw [he] at ht'
              exact absurd ht' (ne_of_lt hgb')
            · rw [he] at ht'
              exact ht'.symm
          have hmv : best' ≤ min best (vp ch.2.1) := le_min (min_le_left best g1)
            (le_trans (min_le_right best g1) hgv)
          rw [min_eq_right (le_trans (le_of_eq hSg) (le_trans (le_of_lt hgb') hmv))]
          exact hSg.symm
      · push_neg at hgb
        have hag1 : a < g1 := lt_of_lt_of_le hab' (le_trans hbb' (min_le_right best g1))
        have hg1v : g1 = vp ch.2.1 := KM1.2.2 hag1 hgb
        have hbeta : min b best' = best' :=
          min_eq_right (le_trans (min_le_right best g1) (le_of_lt hgb))
        have hbt : best' = min best (vp ch.2.1) := by rw [hbest', hg1v]
        rw [hbeta] at IH ⊢
        rw [← hbt]
        refine ⟨?_, ?_, ?_⟩
        · intro hgaa
          exact IH.1 hgaa
        · intro hbg2
          exact IH.2.1 (le_trans (le_trans (min_le_right best g1) (le_of_lt hgb)) hbg2)
        · intro hag hgb2
          rcases lt_or_le (searchMin f true rest best' a best') best' with hlt | hle
          · exact IH.2.2 hag hlt
          · have hge := searchMin_le_best f true rest best' a best'
            have heq : searchMin f true rest best' a best' = best' := le_antisymm hge hle
            have ht := IH.2.1 (le_of_eq heq.symm)
            rw [heq] at ht ⊢
            exact le_antisymm ht (foldl_min_le_init (fun ch => vp ch.2.1) rest best')

/-- Knuth–Moore bounds for the pruned `minimax` against the plain minimax
value, for any window `alpha < beta`. -/
lemma minimax_KM (k : ℕ) :
    ∀ (d : ℕ) (s : State) (a b : Val), a < b →
      KM (minimax k true d s a b) (plainVal k d s) a b := by
  intro d
  induction d with
  | zero =>
    intro s a b _
    exact ⟨fun _ => le_refl _, fun _ => le_refl _, fun _ _ => rfl⟩
  | succ d ih =>
    intro s a b hab
    unfold plainVal
    unfold minimax
    by_cases ht : is_terminal k s = true
    · rw [if_pos ht, if_pos ht]
      exact ⟨fun _ => le_refl _, fun _ => le_refl _, fun _ _ => rfl⟩
    · rw [if_neg ht, if_neg ht]
      cases hw : s.whose_move with
      | X =>
        rw [searchMax_false_foldl]
        exact searchMax_KM (fun cs a b => minimax k true d cs a b) (plainVal k d)
          (orderedChildren k s) (fun ch _ a' b' hab' => ih ch.2.1 a' b' hab')
          ⊥ a b bot_le hab
      | O =>
        rw [searchMin_false_foldl]
        exact searchMin_KM (fun cs a b => minimax k true d cs a b) (plainVal k d)
          (orderedChildren k s) (fun ch _ a' b' hab' => ih ch.2.1 a' b' hab')
          ⊤ a b le_top hab

lemma rootLoop_congr (f g : State → Val → Val → Val) (playing : Player)
    (useAB : Bool) (h : ∀ cs a b, f cs a b = g cs a b) :
    ∀ (l : List Child) (bm : Option (ℕ × ℕ)) (bv a b : Val),
      rootLoop f playing useAB l bm bv a b = rootLoop g playing useAB l bm bv a b := by
  intro l
  induction l with
  | nil => intro bm bv a b; rfl
  | cons ch rest ih =>
    intro bm bv a b
    unfold rootLoop
    rw [h ch.2.1 a b]
    dsimp only
    rw [ih]

lemma rootLoop_X_top (f : State → Val → Val → Val) :
    ∀ (l : List Child) (bm : Option (ℕ × ℕ)) (a b : Val),
      rootLoop f .X false l bm ⊤ a b = (bm, ⊤) := by
  intro l
  induction l with
  | nil => intro bm a b; rfl
  | cons ch rest ih =>
    intro bm a b
    unfold rootLoop
    dsimp only
    rw [if_neg (not_top_lt)]
    dsimp only
    rw [if_neg (by simp)]
    exact ih bm a b

lemma rootLoop_O_bot (f : State → Val → Val → Val) :
    ∀ (l : List Child) (bm : Option (ℕ × ℕ)) (a b : Val),
      rootLoop f .O false l bm ⊥ a b = (bm, ⊥) := by
  intro l
  induction l with
  | nil => intro bm a b; rfl
  | cons ch rest ih =>
    intro bm a b
    unfold rootLoop
    dsimp only
    rw [if_neg (not_lt_bot)]
    dsimp only
    rw [if_neg (by simp)]
    exact ih bm a b

/-- Root-loop equivalence for `playing = X`: with the running invariant
`alpha = best_value < beta = +inf`, the pruned and unpruned root loops keep
identical `(best_move, best_value)` state throughout. -/
lemma rootLoop_X_equiv (ft : State → Val → Val → Val) (vp : State → Val)
    (h : ∀ (cs : State) (a b : Val), a < b → KM (ft cs a b) (vp cs) a b) :
    ∀ (l : List Child) (bm : Option (ℕ × ℕ)) (bv : Val), bv < ⊤ →
      rootLoop ft .X true l bm bv bv ⊤ =
        rootLoop (fun cs _ _ => vp cs) .X false l bm bv bv ⊤ := by
  intro l
  induction l with
  | nil => intro bm bv _; rfl
  | cons ch rest ih =>
    intro bm bv hbv
    have KM1 := h ch.2.1 bv ⊤ hbv
    unfold rootLoop
    dsimp only
    by_cases hup : bv < ft ch.2.1 bv ⊤
    · by_cases htop : ft ch.2.1 bv ⊤ < ⊤
      · have hveq : ft ch.2.1 bv ⊤ = vp ch.2.1 := KM1.2.2 hup htop
        rw [if_pos hup, if_pos (show bv < vp ch.2.1 from hveq ▸ hup)]
        dsimp only
        have hmax : max bv (ft ch.2.1 bv ⊤) = ft ch.2.1 bv ⊤ :=
          max_eq_right (le_of_lt hup)
        have hmax2 : max bv (vp ch.2.1) = vp ch.2.1 :=
          max_eq_right (le_of_lt (hveq ▸ hup))
        rw [if_neg (show ¬(true && decide ((⊤ : Val) ≤ max bv (ft ch.2.1 bv ⊤))) = true by
          simp only [Bool.true_and, decide_eq_true_eq, hmax]
          exact not_le.mpr htop)]
        rw [if_neg (show ¬(false && decide ((⊤ : Val) ≤ max bv (vp ch.2.1))) = true by simp)]
        rw [hmax, hmax2, ← hveq]
        exact ih (some ch.1) (ft ch.2.1 bv ⊤) htop
      · have hgt : ft ch.2.1 bv ⊤ = ⊤ := le_antisymm le_top (not_lt.mp htop)
        have hvt : vp ch.2.1 = ⊤ :=
          le_antisymm le_top (hgt ▸ KM1.2.1 (le_of_eq hgt.symm))
        rw [if_pos hup, if_pos (show bv < vp ch.2.1 by rw [hvt]; exact hbv)]
        dsimp only
        rw [if_pos (show (true && decide ((⊤ : Val) ≤ max bv (ft ch.2.1 bv ⊤))) = true by
          simp only [Bool.true_and, decide_eq_true_eq, hgt]
          simp)]
        rw [if_neg (show ¬(false && decide ((⊤ : Val) ≤ max bv (vp ch.2.1))) = true by simp)]
        rw [hgt, hvt, rootLoop_X_top]
    · have hle : ft ch.2.1 bv ⊤ ≤ bv := not_lt.mp hup
      have hvle : vp ch.2.1 ≤ bv := le_trans (KM1.1 hle) hle
      rw [if_neg hup, if_neg (not_lt.mpr hvle)]
      dsimp only
      rw [if_neg (show ¬(true && decide ((⊤ : Val) ≤ bv)) = true by
        simp only [Bool.true_and, decide_eq_true_eq]
        exact not_le.mpr hbv)]
      rw [if_neg (show ¬(false && decide ((⊤ : Val) ≤ bv)) = true by simp)]
      exact ih bm bv hbv

/-- Root-loop equivalence for `playing = O` (dual). -/
lemma rootLoop_O_equiv (ft : State → Val → Val → Val) (vp : State → Val)
    (h : ∀ (cs : State) (a b : Val), a < b → KM (ft cs a b) (vp cs) a b) :
    ∀ (l : List Child) (bm : Option (ℕ × ℕ)) (bv : Val), ⊥ < bv →
      rootLoop ft .O true l bm bv ⊥ bv =
        rootLoop (fun cs _ _ => vp cs) .O false l bm bv ⊥ bv := by
  intro l
  induction l with
  | nil => intro bm bv _; rfl
  | cons ch rest ih =>
    intro bm bv hbv
    have KM1 := h ch.2.1 ⊥ bv hbv
    unfold rootLoop
    dsimp only
    by_cases hup : ft ch.2.1 ⊥ bv < bv
    · by_cases hbot : ⊥ < ft ch.2.1 ⊥ bv
      · have hveq : ft ch.2.1 ⊥ bv = vp ch.2.1 := KM1.2.2 hbot hup
        rw [if_pos hup, if_pos (show vp ch.2.1 < bv from hveq ▸ hup)]
        dsimp only
        have hmin : min bv (ft ch.2.1 ⊥ bv) = ft ch.2.1 ⊥ bv :=
          min_eq_right (le_of_lt hup)
        have hmin2 : min bv (vp ch.2.1) = vp ch.2.1 :=
          min_eq_right (le_of_lt (hveq ▸ hup))
        rw [if_neg (show ¬(true && decide (min bv (ft ch.2.1 ⊥ bv) ≤ (⊥ : Val))) = true by
          simp only [Bool.true_and, decide_eq_true_eq, hmin]
          exact not_le.mpr hbot)]
        rw [if_neg (show ¬(false && decide (min bv (vp ch.2.1) ≤ (⊥ : Val))) = true by simp)]
        rw [hmin, hmin2, ← hveq]
        exact ih (some ch.1) (ft ch.2.1 ⊥ bv) hbot
      · have hgb : ft ch.2.1 ⊥ bv = ⊥ := le_antisymm (not_lt.mp hbot) bot_le
        have hvb : vp ch.2.1 = ⊥ :=
          le_antisymm (hgb ▸ KM1.1 (le_of_eq hgb)) bot_le
        rw [if_pos hup, if_pos (show vp ch.2.1 < bv by rw [hvb]; exact hbv)]
        dsimp only
        rw [if_pos (show (true && decide (min bv (ft ch.2.1 ⊥ bv) ≤ (⊥ : Val))) = true by
          simp only [Bool.true_and, decide_eq_true_eq, hgb]
          simp)]
        rw [if_neg (show ¬(false && decide (min bv (vp ch.2.1) ≤ (⊥ : Val))) = true by simp)]
        rw [hgb, hvb, rootLoop_O_bot]
    · have hle : bv ≤ ft ch.2.1 ⊥ bv := not_lt.mp hup
      have hvle : bv ≤ vp ch.2.1 := le_trans hle (KM1.2.1 hle)
      rw [if_neg hup, if_neg (not_lt.mpr hvle)]
      dsimp only
      rw [if_neg (show ¬(true && decide (bv ≤ (⊥ : Val))) = true by
        simp only [Bool.true_and, decide_eq_true_eq]
        exact not_le.mpr hbv)]
      rw [if_neg (show ¬(false && decide (bv ≤ (⊥ : Val))) = true by simp)]
      exact ih bm bv hbv

/-- C1: for every state, side to play, search depth and game parameter `k`,
the move-decision core of `make_move` returns exactly the same result — the
same chosen root move, the same root value, and the same error behaviour —
with alpha-beta pruning enabled as with pruning disabled.  Pruning can only
change how many nodes are examined, never the outcome. -/
theorem make_move_pruning_equiv (k : ℕ) (playing : Player) (s : State)
    (maxPly : ℕ) :
    make_move_core k playing s true maxPly = make_move_core k playing s false maxPly := by
  unfold make_move_core
  cases playing with
  | X =>
    dsimp only
    have h1 : rootLoop (fun cs a b => minimax k true (maxPly - 1) cs a b) .X true
        (orderChildren .X (childList k s)) none ⊥ ⊥ ⊤ =
        rootLoop (fun cs _ _ => plainVal k (maxPly - 1) cs) .X false
        (orderChildren .X (childList k s)) none ⊥ ⊥ ⊤ :=
      rootLoop_X_equiv (fun cs a b => minimax k true (maxPly - 1) cs a b)
        (plainVal k (maxPly - 1))
        (fun cs a b hab => minimax_KM k (maxPly - 1) cs a b hab)
        (orderChildren .X (childList k s)) none ⊥ bot_lt_top
    have h2 : rootLoop (fun cs _ _ => plainVal k (maxPly - 1) cs) .X false
        (orderChildren .X (childList k s)) none ⊥ ⊥ ⊤ =
        rootLoop (fun cs a b => minimax k false (maxPly - 1) cs a b) .X false
        (orderChildren .X (childList k s)) none ⊥ ⊥ ⊤ :=
      rootLoop_congr _ _ .X false
        (fun cs a b => minimax_false_ab k (maxPly - 1) cs ⊥ ⊤ a b) _ none ⊥ ⊥ ⊤
    rw [h1, h2]
  | O =>
    dsimp only
    have h1 : rootLoop (fun cs a b => minimax k true (maxPly - 1) cs a b) .O true
        (orderChildren .O (childList k s)) none ⊤ ⊥ ⊤ =
        rootLoop (fun cs _ _ => plainVal k (maxPly - 1) cs) .O false
        (orderChildren .O (childList k s)) none ⊤ ⊥ ⊤ :=
      rootLoop_O_equiv (fun cs a b => minimax k true (maxPly - 1) cs a b)
        (plainVal k (maxPly - 1))
        (fun cs a b hab => minimax_KM k (maxPly - 1) cs a b hab)
        (orderChildren .O (childList k s)) none ⊤ bot_lt_top
    have h2 : rootLoop (fun cs _ _ => plainVal k (maxPly - 1) cs) .O false
        (orderChildren .O (childList k s)) none ⊤ ⊥ ⊤ =
        rootLoop (fun cs a b => minimax k false (maxPly - 1) cs a b) .O false
        (orderChildren .O (childList k s)) none ⊤ ⊥ ⊤ :=
      rootLoop_congr _ _ .O false
        (fun cs a b => minimax_false_ab k (maxPly - 1) cs ⊥ ⊤ a b) _ none ⊤ ⊥ ⊤
    rw [h1, h2]

/-! ### C2: the search never reaches the random fallback -/

lemma searchMax_finite (f : State → Val → Val → Val) (pruning : Bool) :
    ∀ (l : List Child) (z : ℤ) (a b : Val),
      (∀ ch ∈ l, ∀ a' b' : Val, ∃ w : ℤ, f ch.2.1 a' b' = toVal w) →
      ∃ w : ℤ, searchMax f pruning l (toVal z) a b = toVal w := by
  intro l
  induction l with
  | nil => intro z a b _; exact ⟨z, rfl⟩
  | cons ch rest ih =>
    intro z a b hfin
    obtain ⟨w1, hw1⟩ := hfin ch (List.mem_cons_self ch rest) a b
    have hbest : max (toVal z) (f ch.2.1 a b) = toVal (max z w1) := by
      rw [hw1, max_toVal]
    unfold searchMax
    cases pruning with
    | false =>
      rw [if_neg (by simp)]
      rw [hbest]
      exact ih (max z w1) a b (fun ch' h => hfin ch' (List.mem_cons_of_mem _ h))
    | true =>
      rw [if_pos rfl]
      dsimp only
      rw [hbest]
      by_cases hcut : b ≤ max a (toVal (max z w1))
      · rw [if_pos hcut]
        exact ⟨max z w1, rfl⟩
      · rw [if_neg hcut]
        exact ih (max z w1) _ b (fun ch' h => hfin ch' (List.mem_cons_of_mem _ h))

lemma searchMin_finite (f : State → Val → Val → Val) (pruning : Bool) :
    ∀ (l : List Child) (z : ℤ) (a b : Val),
      (∀ ch ∈ l, ∀ a' b' : Val, ∃ w : ℤ, f ch.2.1 a' b' = toVal w) →
      ∃ w : ℤ, searchMin f pruning l (toVal z) a b = toVal w := by
  intro l
  induction l with
  | nil => intro z a b _; exact ⟨z, rfl⟩
  | cons ch rest ih =>
    intro z a b hfin
    obtain ⟨w1, hw1⟩ := hfin ch (List.mem_cons_self ch rest) a b
    have hbest : min (toVal z) (f ch.2.1 a b) = toVal (min z w1) := by
      rw [hw1, min_toVal]
    unfold searchMin
    cases pruning with
    | false =>
      rw [if_neg (by simp)]
      rw [hbest]
      exact ih (min z w1) a b (fun ch' h => hfin ch' (List.mem_cons_of_mem _ h))
    | true =>
      rw [if_pos rfl]
      dsimp only
      rw [hbest]
      by_cases hcut : min b (toVal (min z w1)) ≤ a
      · rw [if_pos hcut]
        exact ⟨min z w1, rfl⟩
      · rw [if_neg hcut]
        exact ih (min z w1) a _ (fun ch' h => hfin ch' (List.mem_cons_of_mem _ h))

lemma orderChildren_mem {p : Player} {l : List Child} {ch : Child}
    (h : ch ∈ orderChildren p l) : ch ∈ l := by
  cases p with
  | X => exact List.mem_mergeSort.mp h
  | O => exact List.mem_mergeSort.mp h

lemma childList_mem {k : ℕ} {s : State} {ch : Child} (h : ch ∈ childList k s) :
    ∃ m ∈ get_available_moves s, ch = (m, applyU s m, static_eval k (applyU s m)) := by
  unfold childList at h
  obtain ⟨m, hm, heq⟩ := List.mem_map.mp h
  exact ⟨m, hm, heq.symm⟩

lemma orderedChildren_WF {k : ℕ} {s : State} (hWF : WF s.board) {ch : Child}
    (h : ch ∈ orderedChildren k s) : WF ch.2.1.board := by
  obtain ⟨m, -, rfl⟩ := childList_mem (orderChildren_mem h)
  exact WF_applyU m hWF

/-- A non-terminal well-formed position has at least one available move:
`is_terminal` is false only when no cell is occupied and some row still
contains `' '`. -/
lemma not_terminal_moves {k : ℕ} {s : State} (hWF : WF s.board)
    (h : is_terminal k s = false) : get_available_moves s ≠ [] := by
  unfold is_terminal at h
  by_cases hscan : ((List.range s.board.length).any fun r =>
      (List.range (colsOf s.board)).any fun c =>
        (cellN s.board r c == Cell.X || cellN s.board r c == Cell.O) &&
        neNoWinString (check_win_condition s (some (r, c)) k)) = true
  · rw [if_pos hscan] at h
    exact absurd h (by simp)
  · rw [if_neg hscan] at h
    have hex : ∃ row ∈ s.board, row.contains Cell.empty = true := by
      by_contra hall
      push_neg at hall
      have hb : (s.board.all fun row => !(row.contains Cell.empty)) = true := by
        rw [List.all_eq_true]
        intro row hrow
        cases hc : row.contains Cell.empty with
        | false => simp [hc]
        | true => exact absurd hc (hall row hrow)
      rw [hb] at h
      exact absurd h (by simp)
    obtain ⟨row, hrow, hcont⟩ := hex
    have hmem : Cell.empty ∈ row := by simpa using hcont
    obtain ⟨j, hj, hjeq⟩ := List.getElem_of_mem hmem
    obtain ⟨r, hr, hreq⟩ := List.getElem_of_mem hrow
    intro hnil
    have hmm : (r, j) ∈ get_available_moves s := by
      unfold get_available_moves
      rw [List.mem_flatMap]
      refine ⟨r, List.mem_range.mpr hr, ?_⟩
      rw [List.mem_filterMap]
      refine ⟨j, List.mem_range.mpr ?_, ?_⟩
      · have hlen := hWF row hrow
        unfold colsOf at hlen
        omega
      · rw [if_pos ?_]
        have hrd : s.board.getD r [] = row := by
          rw [List.getD_eq_getElem s.board [] hr, hreq]
        unfold cellN
        rw [hrd, List.getD_eq_getElem row Cell.empty hj, hjeq]
    rw [hnil] at hmm
    exact absurd hmm (by simp)

/-- The function `minimax` always returns a finite value on well-formed boards: every
non-terminal node has at least one child, so the ±inf accumulators are
always replaced. -/
lemma minimax_finite (k : ℕ) (pruning : Bool) :
    ∀ (d : ℕ) (s : State) (a b : Val), WF s.board →
      ∃ z : ℤ, minimax k pruning d s a b = toVal z := by
  intro d
  induction d with
  | zero => intro s a b _; exact ⟨static_eval k s, rfl⟩
  | succ d ih =>
    intro s a b hWF
    unfold minimax
    by_cases ht : is_terminal k s = true
    · rw [if_pos ht]
      exact ⟨static_eval k s, rfl⟩
    · rw [if_neg ht]
      have hav := not_terminal_moves hWF (by simpa using ht)
      have hne : orderedChildren k s ≠ [] := by
        intro hnil
        have h1 : (orderedChildren k s).length = (childList k s).length := by
          unfold orderedChildren orderChildren
          cases s.whose_move <;> exact List.length_mergeSort _
        rw [hnil] at h1
        have h2 : (childList k s).length = (get_available_moves s).length := by
          unfold childList
          exact List.length_map _ _
        have h1' : (childList k s).length = 0 := by simpa using h1.symm
        exact hav (List.eq_nil_of_length_eq_zero (by omega))
      obtain ⟨ch, rest, hl⟩ := List.exists_cons_of_ne_nil hne
      have hfin : ∀ ch' ∈ orderedChildren k s, ∀ a' b' : Val,
          ∃ w : ℤ, minimax k pruning d ch'.2.1 a' b' = toVal w :=
        fun ch' h' a' b' => ih ch'.2.1 a' b' (orderedChildren_WF hWF h')
      cases s.whose_move with
      | X =>
        rw [hl]
        obtain ⟨w1, hw1⟩ := hfin ch (hl ▸ List.mem_cons_self ch rest) a b
        unfold searchMax
        cases pruning with
        | false =>
          rw [if_neg (by simp)]
          rw [show max ⊥ (minimax k false d ch.2.1 a b) = toVal w1 by
            rw [hw1]; exact max_eq_right bot_le]
          exact searchMax_finite _ false rest w1 a b
            (fun ch' h' => hfin ch' (hl ▸ List.mem_cons_of_mem _ h'))
        | true =>
          rw [if_pos rfl]
          dsimp only
          rw [show max ⊥ (minimax k true d ch.2.1 a b) = toVal w1 by
            rw [hw1]; exact max_eq_right bot_le]
          by_cases hcut : b ≤ max a (toVal w1)
          · rw [if_pos hcut]
            exact ⟨w1, rfl⟩
          · rw [if_neg hcut]
            exact searchMax_finite _ true rest w1 _ b
              (fun ch' h' => hfin ch' (hl ▸ List.mem_cons_of_mem _ h'))
      | O =>
        rw [hl]
        obtain ⟨w1, hw1⟩ := hfin ch (hl ▸ List.mem_cons_self ch rest) a b
        unfold searchMin
        cases pruning with
        | false =>
          rw [if_neg (by simp)]
          rw [show min ⊤ (minimax k false d ch.2.1 a b) = toVal w1 by
            rw [hw1]; exact min_eq_right le_top]
          exact searchMin_finite _ false rest w1 a b
            (fun ch' h' => hfin ch' (hl ▸ List.mem_cons_of_mem _ h'))
        | true =>
          rw [if_pos rfl]
          dsimp only
          rw [show min ⊤ (minimax k true d ch.2.1 a b) = toVal w1 by
            rw [hw1]; exact min_eq_right le_top]
          by_cases hcut : min b (toVal w1) ≤ a
          · rw [if_pos hcut]
            exact ⟨w1, rfl⟩
          · rw [if_neg hcut]
            exact searchMin_finite _ true rest w1 a _
              (fun ch' h' => hfin ch' (hl ▸ List.mem_cons_of_mem _ h'))

lemma rootLoop_isSome_preserved (f : State → Val → Val → Val) (p : Player) (u : Bool) :
    ∀ (l : List Child) (m : ℕ × ℕ) (bv a b : Val),
      ((rootLoop f p u l (some m) bv a b).1).isSome = true := by
  intro l
  induction l with
  | nil => intro m bv a b; rfl
  | cons ch rest ih =>
    intro m bv a b
    unfold rootLoop
    dsimp only
    cases p with
    | X =>
      by_cases hup : bv < f ch.2.1 a b
      · rw [if_pos hup]
        dsimp only
        by_cases hcut : (u && decide (b ≤ max a (f ch.2.1 a b))) = true
        · rw [if_pos hcut]
          rfl
        · rw [if_neg hcut]
          exact ih _ _ _ _
      · rw [if_neg hup]
        dsimp only
        by_cases hcut : (u && decide (b ≤ a)) = true
        · rw [if_pos hcut]
          rfl
        · rw [if_neg hcut]
          exact ih _ _ _ _
    | O =>
      by_cases hup : f ch.2.1 a b < bv
      · rw [if_pos hup]
        dsimp only
        by_cases hcut : (u && decide (min b (f ch.2.1 a b) ≤ a)) = true
        · rw [if_pos hcut]
          rfl
        · rw [if_neg hcut]
          exact ih _ _ _ _
      · rw [if_neg hup]
        dsimp only
        by_cases hcut : (u && decide (b ≤ a)) = true
        · rw [if_pos hcut]
          rfl
        · rw [if_neg hcut]
          exact ih _ _ _ _

lemma rootLoop_X_first_some (f : State → Val → Val → Val) (u : Bool)
    (ch : Child) (rest : List Child) (hfin : ∃ z : ℤ, f ch.2.1 ⊥ ⊤ = toVal z) :
    ((rootLoop f .X u (ch :: rest) none ⊥ ⊥ ⊤).1).isSome = true := by
  obtain ⟨z, hz⟩ := hfin
  unfold rootLoop
  dsimp only
  rw [if_pos (show (⊥ : Val) < f ch.2.1 ⊥ ⊤ by rw [hz]; exact bot_lt_toVal z)]
  dsimp only
  by_cases hcut : (u && decide ((⊤ : Val) ≤ max ⊥ (f ch.2.1 ⊥ ⊤))) = true
  · rw [if_pos hcut]
    rfl
  · rw [if_neg hcut]
    exact rootLoop_isSome_preserved f .X u rest ch.1 _ _ _

lemma rootLoop_O_first_some (f : State → Val → Val → Val) (u : Bool)
    (ch : Child) (rest : List Child) (hfin : ∃ z : ℤ, f ch.2.1 ⊥ ⊤ = toVal z) :
    ((rootLoop f .O u (ch :: rest) none ⊤ ⊥ ⊤).1).isSome = true := by
  obtain ⟨z, hz⟩ := hfin
  unfold rootLoop
  dsimp only
  rw [if_pos (show f ch.2.1 ⊥ ⊤ < (⊤ : Val) by rw [hz]; exact toVal_lt_top z)]
  dsimp only
  by_cases hcut : (u && decide (min ⊤ (f ch.2.1 ⊥ ⊤) ≤ (⊥ : Val))) = true
  · rw [if_pos hcut]
    rfl
  · rw [if_neg hcut]
    exact rootLoop_isSome_preserved f .O u rest ch.1 _ _ _

/-- C2: on a well-formed board, when the root search finds no strictly
improving move — which happens exactly when there are no legal moves — the
move decision ends in the `ValueError("No valid moves available!")` (the
NoMovesAvailable condition); the `random.choice` fallback branch is
unreachable, so an arbitrary legal move is never silently substituted. -/
theorem make_move_no_silent_fallback (k : ℕ) (playing : Player) (s : State)
    (useAB : Bool) (maxPly : ℕ) (hWF : WF s.board) :
    (make_move_core k playing s useAB maxPly = .raiseNoMoves ↔
      get_available_moves s = []) ∧
    ∀ l, make_move_core k playing s useAB maxPly ≠ .fallback l := by
  by_cases hav : get_available_moves s = []
  · have hcl : childList k s = [] := by
      unfold childList
      rw [hav]
      rfl
    unfold make_move_core
    dsimp only
    rw [hcl]
    have hoc : ∀ p : Player, orderChildren p ([] : List Child) = [] := by
      intro p
      cases p <;> simp [orderChildren]
    rw [hoc playing, hav]
    unfold rootLoop
    simp
  · have hne : orderChildren playing (childList k s) ≠ [] := by
      intro hnil
      have h1 : (orderChildren playing (childList k s)).length = (childList k s).length := by
        cases playing <;> exact List.length_mergeSort _
      rw [hnil] at h1
      have h2 : (childList k s).length = (get_available_moves s).length :=
        List.length_map _ _
      have h1' : (childList k s).length = 0 := by simpa using h1.symm
      exact hav (List.eq_nil_of_length_eq_zero (by omega))
    obtain ⟨ch, rest, hl⟩ := List.exists_cons_of_ne_nil hne
    have hchfin : ∃ z : ℤ, minimax k useAB (maxPly - 1) ch.2.1 ⊥ ⊤ = toVal z := by
      have hmem : ch ∈ orderChildren playing (childList k s) := by
        rw [hl]
        exact List.mem_cons_self ch rest
      obtain ⟨m, -, rfl⟩ := childList_mem (orderChildren_mem hmem)
      exact minimax_finite k useAB (maxPly - 1) _ ⊥ ⊤ (WF_applyU m hWF)
    unfold make_move_core
    dsimp only
    rw [hl]
    cases playing with
    | X =>
      have hsome := rootLoop_X_first_some
        (fun cs a b => minimax k useAB (maxPly - 1) cs a b) useAB ch rest hchfin
      obtain ⟨m, hm⟩ := Option.isSome_iff_exists.mp hsome
      rw [hm]
      constructor
      · simp [hav]
      · intro l
        simp
    | O =>
      have hsome := rootLoop_O_first_some
        (fun cs a b => minimax k useAB (maxPly - 1) cs a b) useAB ch rest hchfin
      obtain ⟨m, hm⟩ := Option.isSome_iff_exists.mp hsome
      rw [hm]
      constructor
      · simp [hav]
      · intro l
        simp

/-- Witness for `make_move_no_silent_fallback`: on a full 1×1 board the
move decision raises the NoMovesAvailable error, and on a 1×2 board with a
free cell it neither raises nor falls back. -/
theorem make_move_no_silent_fallback_witness :
    WF [[Cell.X]] ∧
    make_move_core 3 Player.O ⟨[[Cell.X]], Player.O⟩ true 2 = .raiseNoMoves ∧
    WF [[Cell.X, Cell.empty]] ∧
    ∀ l, make_move_core 3 Player.O ⟨[[Cell.X, Cell.empty]], Player.O⟩ true 2 ≠
      .fallback l := by
  refine ⟨by decide, ?_, by decide, ?_⟩
  · exact (make_move_no_silent_fallback 3 Player.O ⟨[[Cell.X]], Player.O⟩ true 2
      (by decide)).1.mpr (by decide)
  · exact (make_move_no_silent_fallback 3 Player.O ⟨[[Cell.X, Cell.empty]], Player.O⟩
      true 2 (by decide)).2

/-! ### Adequacy of the loop fuel in `count_in_direction` -/

lemma countFrom_succ_of_lt (b : Board) (p : Cell) (dr dc : ℤ) :
    ∀ (fuel : ℕ) (r c : ℤ), countFrom b p dr dc fuel r c < fuel →
      ∀ extra : ℕ, countFrom b p dr dc (fuel + extra) r c = countFrom b p dr dc fuel r c := by
  intro fuel
  induction fuel with
  | zero => intro r c h; omega
  | succ f ih =>
    intro r c h extra
    by_cases hguard : (inBoundsB b r c && (cellZ b r c == p)) = true
    · have hsucc : countFrom b p dr dc (f + 1) r c =
          countFrom b p dr dc f (r + dr) (c + dc) + 1 := by
        rw [countFrom.eq_2, if_pos hguard]
      have hrec : countFrom b p dr dc f (r + dr) (c + dc) < f := by
        rw [hsucc] at h
        omega
      have hext : countFrom b p dr dc (f + 1 + extra) r c =
          countFrom b p dr dc (f + extra) (r + dr) (c + dc) + 1 := by
        have he : f + 1 + extra = (f + extra) + 1 := by omega
        rw [he]
        rw [countFrom.eq_2, if_pos hguard]
      rw [hext, hsucc, ih (r + dr) (c + dc) hrec extra]
    · have h1 : countFrom b p dr dc (f + 1) r c = 0 := by
        unfold countFrom
        rw [if_neg hguard]
      have h2 : countFrom b p dr dc (f + 1 + extra) r c = 0 := by
        have he : f + 1 + extra = (f + extra) + 1 := by omega
        rw [he]
        rw [countFrom.eq_2, if_neg hguard]
      rw [h1, h2]

/-- The fuel `rows + cols + 1` used in `count_in_direction` is never
exhausted: along any of the detector's rays the count is at most
`rows + cols`, so the fuelled recursion computes exactly the value of the
unbounded Python `while` loop, and any larger fuel gives the same count. -/
lemma count_in_direction_fuel_adequate (b : Board) (p : Cell) (dr dc : ℤ)
    (hd : dr = 1 ∨ dr = -1 ∨ (dr = 0 ∧ (dc = 1 ∨ dc = -1)))
    (startRow startCol : ℤ) (extra : ℕ) :
    countFrom b p dr dc (rowsOf b + colsOf b + 1 + extra)
        (startRow + dr) (startCol + dc) =
      count_in_direction b startRow startCol dr dc p := by
  unfold count_in_direction
  refine countFrom_succ_of_lt b p dr dc _ _ _ ?_ extra
  set n := countFrom b p dr dc (rowsOf b + colsOf b + 1) (startRow + dr) (startCol + dc)
    with hn
  rcases Nat.eq_zero_or_pos n with hz | hpos
  · omega
  · have h0 : okCell b p (startRow + dr + (0 : ℕ) * dr) (startCol + dc + (0 : ℕ) * dc) :=
      countFrom_ok b p dr dc _ _ _ 0 (by rw [← hn]; omega)
    have hlast : okCell b p (startRow + dr + (n - 1 : ℕ) * dr)
        (startCol + dc + (n - 1 : ℕ) * dc) :=
      countFrom_ok b p dr dc _ _ _ (n - 1) (by rw [← hn]; omega)
    have := stretch_lt b p dr dc hd (startRow + dr + (0 : ℕ) * dr)
      (startCol + dc + (0 : ℕ) * dc) (n - 1) h0 (by
        have e1 : startRow + dr + (0 : ℕ) * dr + (n - 1 : ℕ) * dr =
            startRow + dr + (n - 1 : ℕ) * dr := by push_cast; ring
        have e2 : startCol + dc + (0 : ℕ) * dc + (n - 1 : ℕ) * dc =
            startCol + dc + (n - 1 : ℕ) * dc := by push_cast; ring
        rw [e1, e2]
        exact hlast)
    omega
